import Mathlib

set_option maxRecDepth 100000

/-!
Verification of the SMASH spatial grid (src/include/grid.h) and the
DeformedNucleus error paths (deformednucleus.cc), as a shallow embedding.

Modelling conventions:
- The C++ float arithmetic is modelled by exact rational arithmetic (ℚ);
  std::floor and std::ceil become the integer floor and ceiling on ℚ.
- std::cbrt(particle_count) truncated to int becomes the integer cube root.
- The debug build (NDEBUG undefined) is modelled: the out-of-bounds checks
  in the constructor are present, and a detected violation is an
  Except.error value (the thrown std::runtime_error).
- std::vector of cells becomes a List of Lists, addressed positionally.
- The periodic bounds check in the source is
  idx < make_index(1,1,0) or idx >= make_index(nx-1,ny-1,nz-1) or idx >= size;
  the third disjunct is subsumed by the second (that index equals size - 1),
  so the model keeps the first two.
-/

namespace SmashGrid

/-- Spatial 3-vector of exact rationals, modelling the float triples of the source. -/
structure Vec3 where
  x : ℚ
  y : ℚ
  z : ℚ
deriving DecidableEq, Repr

/-- Particle: an identity plus a 3D position.  The source stores full
ParticleData; only identity and position are relevant to the grid. -/
structure Particle where
  pid : ℕ
  pos : Vec3
deriving DecidableEq, Repr

/-- Boundary-condition selector, modelling enum class GridOptions. -/
inductive GridOptions where
  | Normal
  | PeriodicBoundaries
deriving DecidableEq, Repr

/-- Componentwise minimum. -/
def vmin (a b : Vec3) : Vec3 := ⟨min a.x b.x, min a.y b.y, min a.z b.z⟩

/-- Componentwise maximum. -/
def vmax (a b : Vec3) : Vec3 := ⟨max a.x b.x, max a.y b.y, max a.z b.z⟩

/-- Grid::find_min_max_positions: bounding box of all particle positions,
initialised from the first particle and folded over the whole list.
The source asserts a non-empty list; the empty case is junk. -/
def findMinMaxPositions (ps : List Particle) : Vec3 × Vec3 :=
  match ps with
  | [] => (⟨0, 0, 0⟩, ⟨0, 0, 0⟩)
  | p :: _ => ps.foldl (fun r q => (vmin r.1 q.pos, vmax r.2 q.pos)) (p.pos, p.pos)

/-- Integer cube root: the largest k with k*k*k ≤ n.  Models
static_cast of std::cbrt(particle_count) to int (truncation). -/
def natCbrt (n : ℕ) : ℕ :=
  (List.range (n + 1)).foldl (fun acc k => if k * k * k ≤ n then max acc k else acc) 0

/-- Per-axis maximal interaction length, 2.5 in the source. -/
def maxInteractionLength : ℚ := 5/2

/-- Per-axis cell-count and index-factor resolution, modelling the loop in
the Grid constructor: index_factor = 1/2.5, count = max(1, ceil(extent *
index_factor)); if count > max_cells then count = max_cells and
index_factor = (max_cells - 0.1)/extent. -/
def resolveAxis (lo hi : ℚ) (maxCells : ℕ) : ℕ × ℚ :=
  let f := 1 / maxInteractionLength
  let n : ℕ := (max 1 ⌈(hi - lo) * f⌉).toNat
  if maxCells < n then (maxCells, ((maxCells : ℚ) - 1/10) / (hi - lo))
  else (n, f)

/-- Resolved grid geometry: bounding box, per-axis cell counts and index factors. -/
structure Geometry where
  minP : Vec3
  maxP : Vec3
  nx : ℕ
  ny : ℕ
  nz : ℕ
  fx : ℚ
  fy : ℚ
  fz : ℚ
deriving DecidableEq, Repr

/-- Geometry before any ghost layers: the constructor loop over the three axes. -/
def baseGeometry (ps : List Particle) : Geometry :=
  let mm := findMinMaxPositions ps
  let mc := natCbrt ps.length
  let rx := resolveAxis mm.1.x mm.2.x mc
  let ry := resolveAxis mm.1.y mm.2.y mc
  let rz := resolveAxis mm.1.z mm.2.z mc
  ⟨mm.1, mm.2, rx.1, ry.1, rz.1, rx.2, ry.2, rz.2⟩

/-- Periodic mode adds ghost layers: x and y get one layer on each side,
z one layer on one side only. -/
def periodicGeometry (ps : List Particle) : Geometry :=
  let g := baseGeometry ps
  { g with nx := g.nx + 2, ny := g.ny + 2, nz := g.nz + 1 }

/-- Linearisation of a 3D cell coordinate, Grid::make_index(x,y,z):
(z * ny + y) * nx + x, on natural coordinates. -/
def linIdx (nx ny x y z : ℕ) : ℕ := (z * ny + y) * nx + x

/-- Linearisation on integer coordinates (the source works with int). -/
def makeIndexZ (nx ny : ℕ) (x y z : ℤ) : ℤ := (z * (ny : ℤ) + y) * (nx : ℤ) + x

/-- Grid&lt;Normal&gt;::make_index(position): per-axis floor of
(pos - min) * index_factor, then linearise. -/
def normalCellIndex (g : Geometry) (pos : Vec3) : ℤ :=
  makeIndexZ g.nx g.ny
    ⌊(pos.x - g.minP.x) * g.fx⌋ ⌊(pos.y - g.minP.y) * g.fy⌋ ⌊(pos.z - g.minP.z) * g.fz⌋

/-- Grid&lt;PeriodicBoundaries&gt;::make_index(position): the x and y cell
coordinates are offset by +1 into the interior; z has no offset. -/
def periodicCellIndex (g : Geometry) (pos : Vec3) : ℤ :=
  makeIndexZ g.nx g.ny
    (1 + ⌊(pos.x - g.minP.x) * g.fx⌋) (1 + ⌊(pos.y - g.minP.y) * g.fy⌋)
    ⌊(pos.z - g.minP.z) * g.fz⌋

/-- Grid&lt;PeriodicBoundaries&gt;::is_ghost_cell. -/
def isGhostCell (nx ny nz x y z : ℕ) : Bool :=
  z + 1 == nz || y == 0 || y + 1 == ny || x == 0 || x + 1 == nx

/-- Message of the std::runtime_error thrown on a failed bounds check. -/
def oobMsg : String := "out-of-bounds grid access on construction"

/-- cells_[idx].push_back(p). -/
def cellPush (cs : List (List Particle)) (i : ℕ) (p : Particle) : List (List Particle) :=
  cs.set i (cs.getD i [] ++ [p])

/-- The particle-bucketing loop with the debug bounds check: a particle whose
index falls outside [lower, upper) aborts construction with a thrown error,
before any insertion of that particle. -/
def fillCells (idxOf : Particle → ℤ) (lower upper : ℤ) :
    List (List Particle) → List Particle → Except String (List (List Particle))
  | cs, [] => .ok cs
  | cs, p :: ps =>
      if idxOf p < lower ∨ upper ≤ idxOf p then .error oobMsg
      else fillCells idxOf lower upper (cellPush cs (idxOf p).toNat p) ps

/-- Position shift applied to a ghost copy of a particle
(set_4position(position() + position_shift), spatial components). -/
def shiftP (s : Vec3) (p : Particle) : Particle :=
  ⟨p.pid, ⟨p.pos.x + s.x, p.pos.y + s.y, p.pos.z + s.z⟩⟩

/-- The copy-source index and position shift for a ghost cell, exactly the
copy_idx / position_shift accumulation of the ghost-filling loop. -/
def ghostSource (nx ny nz x y z : ℕ) (len : Vec3) : ℤ × Vec3 :=
  let idx : ℤ := linIdx nx ny x y z
  let p1 : ℤ × ℚ :=
    if x = 0 then (idx + ((nx : ℤ) - 2), -len.x)
    else if x + 1 = nx then (idx - ((nx : ℤ) - 2), len.x)
    else (idx, 0)
  let p2 : ℤ × ℚ :=
    if y = 0 then (p1.1 + ((ny : ℤ) - 2) * (nx : ℤ), -len.y)
    else if y + 1 = ny then (p1.1 - ((ny : ℤ) - 2) * (nx : ℤ), len.y)
    else (p1.1, 0)
  let p3 : ℤ × ℚ :=
    if z + 1 = nz then (p2.1 - ((nz : ℤ) - 1) * ((nx : ℤ) * (ny : ℤ)), len.z)
    else (p2.1, 0)
  (p3.1, ⟨p1.2, p2.2, p3.2⟩)

/-- One iteration of the ghost-filling loop body: a ghost cell is overwritten
with the shifted copy of its source cell; other cells are untouched. -/
def ghostStep (nx ny nz : ℕ) (len : Vec3) (cs : List (List Particle)) (c : ℕ × ℕ × ℕ) :
    List (List Particle) :=
  if isGhostCell nx ny nz c.1 c.2.1 c.2.2 then
    let src := ghostSource nx ny nz c.1 c.2.1 c.2.2 len
    cs.set (linIdx nx ny c.1 c.2.1 c.2.2) ((cs.getD src.1.toNat []).map (shiftP src.2))
  else cs

/-- All cell coordinates in the loop order of the source (z outer, y, x inner). -/
def allCoords (nx ny nz : ℕ) : List (ℕ × ℕ × ℕ) :=
  (List.range nz).flatMap fun z =>
    (List.range ny).flatMap fun y =>
      (List.range nx).map fun x => (x, y, z)

/-- The ghost-filling triple loop. -/
def ghostFill (nx ny nz : ℕ) (len : Vec3) (cs : List (List Particle)) :
    List (List Particle) :=
  (allCoords nx ny nz).foldl (ghostStep nx ny nz len) cs

/-- The constructed grid: boundary mode, geometry, and the cell buckets. -/
structure GridS where
  mode : GridOptions
  minP : Vec3
  fx : ℚ
  fy : ℚ
  fz : ℚ
  nx : ℕ
  ny : ℕ
  nz : ℕ
  cells : List (List Particle)
deriving DecidableEq, Repr

instance : Inhabited GridS := ⟨⟨GridOptions.Normal, ⟨0, 0, 0⟩, 0, 0, 0, 1, 1, 1, [[]]⟩⟩

/-- Total number of cells. -/
def GridS.size (g : GridS) : ℕ := g.nx * g.ny * g.nz

/-- The dilute-limit test: every axis resolved to at most 2 cells. -/
def diluteB (g : Geometry) : Bool := g.nx ≤ 2 && g.ny ≤ 2 && g.nz ≤ 2

/-- Grid construction (the Grid constructor), in debug build: periodic mode
builds ghost-augmented geometry, buckets particles with the interior-window
bounds check, then fills ghost cells; Normal mode either takes the dilute
single-cell fallback or buckets particles with the array-bounds check. -/
def gridConstruct (mode : GridOptions) (ps : List Particle) : Except String GridS :=
  match mode with
  | .PeriodicBoundaries =>
      let g := periodicGeometry ps
      let lower := makeIndexZ g.nx g.ny 1 1 0
      let upper := makeIndexZ g.nx g.ny ((g.nx : ℤ) - 1) ((g.ny : ℤ) - 1) ((g.nz : ℤ) - 1)
      let len : Vec3 := ⟨g.maxP.x - g.minP.x, g.maxP.y - g.minP.y, g.maxP.z - g.minP.z⟩
      (fillCells (fun p => periodicCellIndex g p.pos) lower upper
          (List.replicate (g.nx * g.ny * g.nz) []) ps).map fun cs =>
        ⟨mode, g.minP, g.fx, g.fy, g.fz, g.nx, g.ny, g.nz,
         ghostFill g.nx g.ny g.nz len cs⟩
  | .Normal =>
      let g := baseGeometry ps
      if diluteB g then
        .ok ⟨mode, g.minP, g.fx, g.fy, g.fz, 1, 1, 1, [ps]⟩
      else
        (fillCells (fun p => normalCellIndex g p.pos) 0 ((g.nx * g.ny * g.nz : ℕ))
            (List.replicate (g.nx * g.ny * g.nz) []) ps).map fun cs =>
          ⟨mode, g.minP, g.fx, g.fy, g.fz, g.nx, g.ny, g.nz, cs⟩

/-- The neighbour collection of one call_closure invocation: loop dz over zs,
dy over ys, dx over xs; include the offset cell when its linear index
exceeds the home index. -/
def stencilNeighbors (nx ny : ℕ) (idx : ℤ) (zs ys xs : List ℤ) : List ℕ :=
  zs.flatMap fun dz =>
    ys.flatMap fun dy =>
      xs.filterMap fun dx =>
        let j := idx + dz * ((ny : ℤ) * (nx : ℤ)) + dy * (nx : ℤ) + dx
        if idx < j then some j.toNat else none

/-- Offsets offered along one axis in Normal mode, following
build_neighbors_with_zy / build_neighbors_with_z: a single-cell axis offers
{0}; the first cell {0,1}; the last cell {-1,0}; interior cells {-1,0,1}. -/
def axisOffsetsAt (n i : ℕ) : List ℤ :=
  if n ≤ 1 then [0]
  else if i = 0 then [0, 1]
  else if i + 1 = n then [-1, 0]
  else [-1, 0, 1]

/-- Offsets offered along z in Normal mode: {0,1} except on the last z layer. -/
def zOffsetsAt (nz z : ℕ) : List ℤ := if z + 1 < nz then [0, 1] else [0]

/-- One Normal-mode traversal call at cell (x,y,z): home index and neighbour indices. -/
def callAtN (nx ny nz x y z : ℕ) : ℕ × List ℕ :=
  (linIdx nx ny x y z,
   stencilNeighbors nx ny (linIdx nx ny x y z)
     (zOffsetsAt nz z) (axisOffsetsAt ny y) (axisOffsetsAt nx x))

/-- Normal-mode traversal call list, in the loop order of iterate_cells
(z outer; within a z-layer, y = 0, 1, ..., ny-1; within a row, x = 0..nx-1). -/
def callsNormal (nx ny nz : ℕ) : List (ℕ × List ℕ) :=
  (List.range nz).flatMap fun z =>
    (List.range ny).flatMap fun y =>
      (List.range nx).map fun x => callAtN nx ny nz x y z

/-- One periodic-mode traversal call: the full x/y stencil and forward z stencil. -/
def callAtP (nx ny x y z : ℕ) : ℕ × List ℕ :=
  (linIdx nx ny x y z,
   stencilNeighbors nx ny (linIdx nx ny x y z) [0, 1] [-1, 0, 1] [-1, 0, 1])

/-- Periodic-mode traversal call list: home cells are the interior cells only,
z from 0 to nz-2, y from 1 to ny-2, x from 1 to nx-2. -/
def callsPeriodic (nx ny nz : ℕ) : List (ℕ × List ℕ) :=
  (List.range (nz - 1)).flatMap fun z =>
    (List.range (ny - 2)).flatMap fun dy =>
      (List.range (nx - 2)).map fun dx => callAtP nx ny (dx + 1) (dy + 1) z

/-- Grid::iterate_cells: the sequence of callback invocations, each carrying
the home cell's particle list and the neighbour cells' particle lists. -/
def GridS.iterate (g : GridS) : List (List Particle × List (List Particle)) :=
  let calls := match g.mode with
    | GridOptions.Normal => callsNormal g.nx g.ny g.nz
    | GridOptions.PeriodicBoundaries => callsPeriodic g.nx g.ny g.nz
  calls.map fun c => (g.cells.getD c.1 [], c.2.map fun j => g.cells.getD j [])

/-- Membership of a particle identity in a particle list (a ghost copy and
its original share the identity). -/
def containsId (l : List Particle) (i : ℕ) : Bool := l.any fun r => r.pid == i

/-- A single callback invocation delivers the pair of identities i, j
together when both are in the home list, or one is in the home list and the
other in some neighbour list. -/
def deliveredTogether (c : List Particle × List (List Particle)) (i j : ℕ) : Bool :=
  (containsId c.1 i && containsId c.1 j) ||
  (containsId c.1 i && c.2.any fun l => containsId l j) ||
  (containsId c.1 j && c.2.any fun l => containsId l i)

/-- Number of callback invocations delivering the pair of identities together. -/
def numDeliveries (calls : List (List Particle × List (List Particle))) (i j : ℕ) : ℕ :=
  calls.countP fun c => deliveredTogether c i j

/-- Cell coordinates of a linear index. -/
def unlin (nx ny i : ℕ) : ℕ × ℕ × ℕ := (i % nx, i / nx % ny, i / (nx * ny))

/-- Two cell coordinates on one axis differ by at most one. -/
def adjCoord (a b : ℕ) : Bool := a == b || a + 1 == b || b + 1 == a

/-- Two cells (as linear indices) are stencil-adjacent: their coordinates
differ by at most one on every axis. -/
def adjacentCells (nx ny i j : ℕ) : Bool :=
  adjCoord (unlin nx ny i).1 (unlin nx ny j).1 &&
  adjCoord (unlin nx ny i).2.1 (unlin nx ny j).2.1 &&
  adjCoord (unlin nx ny i).2.2 (unlin nx ny j).2.2

/-- The identities i and j live in (possibly equal) stencil-adjacent cells of g. -/
def sameOrAdjacent (g : GridS) (i j : ℕ) : Prop :=
  ∃ a b : ℕ, a < g.size ∧ b < g.size ∧
    containsId (g.cells.getD a []) i = true ∧
    containsId (g.cells.getD b []) j = true ∧
    adjacentCells g.nx g.ny a b = true

/-- DeformedNucleus::y_l_0: defined for l = 2 and l = 4, a thrown
std::domain_error for every other l. -/
noncomputable def y_l_0 (l : ℤ) (cosx : ℝ) : Except String ℝ :=
  if l = 2 then
    .ok ((1/4) * Real.sqrt (5 / Real.pi) * (3 * (cosx * cosx) - 1))
  else if l = 4 then
    .ok ((3/16) * Real.sqrt (1 / Real.pi) *
      (35 * (cosx * cosx) * (cosx * cosx) - 30 * (cosx * cosx) + 3))
  else
    .error "Not a valid angular momentum quantum number in DeformedNucleus::y_l_0."

/-- DeformedNucleus::set_parameters_automatic, the deformation-parameter
switch on the nucleon count: returns (beta2, beta4) for the four listed mass
numbers and a thrown std::domain_error otherwise. -/
def setParametersAutomatic (n : ℕ) : Except String (ℚ × ℚ) :=
  if n = 238 then .ok (215/1000, 93/1000)
  else if n = 208 then .ok (0, 0)
  else if n = 197 then .ok (-131/1000, -31/1000)
  else if n = 63 then .ok (162/1000, -6/1000)
  else .error "Mass number not listed in DeformedNucleus::set_parameters_automatic."


/-- The bucketing loop without the bounds check. -/
def fillPure (idxOf : Particle → ℤ) (cs : List (List Particle)) (ps : List Particle) :
    List (List Particle) :=
  ps.foldl (fun cs p => cellPush cs (idxOf p).toNat p) cs

/-- Mirror coordinate on the x or y axis: a ghost at coordinate 0 copies from
n-2, a ghost at n-1 copies from 1, anything else copies from itself. -/
def mirrorCoordXY (n i : ℕ) : ℕ := if i = 0 then n - 2 else if i + 1 = n then 1 else i

/-- Mirror coordinate on the z axis: the ghost layer at n-1 copies from 0. -/
def mirrorCoordZ (n i : ℕ) : ℕ := if i + 1 = n then 0 else i

/-- The position shift applied to the particles copied into a ghost cell. -/
def ghostShiftVec (len : Vec3) (nx ny nz x y z : ℕ) : Vec3 :=
  ⟨if x = 0 then -len.x else if x + 1 = nx then len.x else 0,
   if y = 0 then -len.y else if y + 1 = ny then len.y else 0,
   if z + 1 = nz then len.z else 0⟩

/-- Componentwise negation. -/
def negV (s : Vec3) : Vec3 := ⟨-s.x, -s.y, -s.z⟩

/-- The domain extent (max - min componentwise) used for ghost shifts. -/
def domainLen (ps : List Particle) : Vec3 :=
  ⟨(findMinMaxPositions ps).2.x - (findMinMaxPositions ps).1.x,
   (findMinMaxPositions ps).2.y - (findMinMaxPositions ps).1.y,
   (findMinMaxPositions ps).2.z - (findMinMaxPositions ps).1.z⟩

/-- Modelled from the spec wording of resolve_geometry (section 4.1), for
comparison with the source-derived resolveAxis: index_factor = 1/interaction
length, naive count = ceil(extent * factor) clamped to at least 1; a count
above max_cells is replaced by max_cells with the factor rescaled to
(max_cells - 0.1)/extent. -/
def resolveAxisSpec (lo hi : ℚ) (maxCells : ℕ) : ℕ × ℚ :=
  let factor : ℚ := 1 / (5/2 : ℚ)
  let naive : ℕ := (max 1 ⌈(hi - lo) * factor⌉).toNat
  if naive > maxCells then (maxCells, ((maxCells : ℚ) - 1/10) / (hi - lo))
  else (naive, factor)

/-- Scenario data: two particles at distance 10, the dilute-fallback scenario
of the spec. -/
def scenarioTwo : List Particle := [⟨0, ⟨0, 0, 0⟩⟩, ⟨1, ⟨10, 0, 0⟩⟩]

/-- Scenario data: 27 particles on a 3x3x3 lattice with the given spacing. -/
def lattice3 (s : ℚ) : List Particle :=
  (List.range 27).map fun k => ⟨k, ⟨s * (k % 3 : ℕ), s * (k / 3 % 3 : ℕ), s * (k / 9 : ℕ)⟩⟩

/-- Scenario data: 8 particles spanning two interior z cells in periodic mode. -/
def ps8 : List Particle :=
  [⟨0, ⟨0, 0, 0⟩⟩, ⟨1, ⟨0, 0, 3⟩⟩, ⟨2, ⟨0, 0, 0⟩⟩, ⟨3, ⟨0, 0, 0⟩⟩,
   ⟨4, ⟨0, 0, 0⟩⟩, ⟨5, ⟨0, 0, 0⟩⟩, ⟨6, ⟨0, 0, 0⟩⟩, ⟨7, ⟨0, 0, 0⟩⟩]

/-- Scenario data: 27 particles in a 10 x 10 box with one particle at
x = 9.9, for the periodic ghost-image scenario. -/
def ps27s : List Particle :=
  [⟨0, ⟨0, 0, 0⟩⟩, ⟨1, ⟨10, 10, 0⟩⟩, ⟨2, ⟨99/10, 5, 0⟩⟩] ++
  (List.range 24).map fun k => ⟨k + 3, ⟨0, 0, 0⟩⟩

/-- Scenario data: 64 particles whose x extent is exactly 10 (4 cells of
width 2.5), with one particle sitting on the maximal corner. -/
def ps64 : List Particle :=
  (List.range 63).map (fun k => ⟨k, ⟨0, 0, 0⟩⟩) ++ [⟨63, ⟨10, 0, 0⟩⟩]

/-- Scenario data: 8 particles in periodic mode where the particle at x = 5
maps into a ghost column without tripping the linear-window bounds check. -/
def ps8b : List Particle :=
  [⟨0, ⟨0, 0, 0⟩⟩, ⟨1, ⟨0, 0, 0⟩⟩, ⟨2, ⟨0, 0, 0⟩⟩, ⟨3, ⟨0, 0, 0⟩⟩,
   ⟨4, ⟨0, 0, 0⟩⟩, ⟨5, ⟨0, 0, 0⟩⟩, ⟨6, ⟨0, 0, 0⟩⟩, ⟨7, ⟨5, 0, 0⟩⟩]

/-! ### Generic list lemmas -/

theorem getD_set_self {α} : ∀ (l : List α) (i : ℕ) (v d : α), i < l.length →
    (l.set i v).getD i d = v
  | [], i, _, _, h => absurd h (by simp)
  | _ :: _, 0, _, _, _ => rfl
  | _ :: l, i + 1, v, d, h => getD_set_self l i v d (by simpa using h)

theorem getD_set_ne {α} : ∀ (l : List α) (i j : ℕ) (v d : α), i ≠ j →
    (l.set j v).getD i d = l.getD i d
  | [], _, _, _, _, _ => rfl
  | _ :: _, 0, 0, _, _, h => absurd rfl h
  | _ :: _, 0, _ + 1, _, _, _ => rfl
  | _ :: _, _ + 1, 0, _, _, _ => rfl
  | _ :: l, i + 1, j + 1, v, d, h => getD_set_ne l i j v d (by omega)

theorem getD_replicate {α} : ∀ (n i : ℕ) (d : α), (List.replicate n d).getD i d = d
  | 0, 0, _ => rfl
  | 0, _ + 1, _ => rfl
  | _ + 1, 0, _ => rfl
  | n + 1, i + 1, d => getD_replicate n i d

theorem countP_range_one (n k : ℕ) (p : ℕ → Bool) (hk : k < n)
    (h : ∀ i, i < n → (p i = true ↔ i = k)) : (List.range n).countP p = 1 := by
  induction n with
  | zero => omega
  | succ n ih =>
    rw [List.range_succ, List.countP_append]
    by_cases hkn : k = n
    · have h0 : (List.range n).countP p = 0 := by
        rw [List.countP_eq_zero]
        intro a ha
        rw [List.mem_range] at ha
        rcases hpa : p a with _ | _
        · simp
        · have := (h a (by omega)).1 hpa
          omega
      have h1 : p n = true := (h n (by omega)).2 hkn.symm
      simp [h0, h1]
    · have h1 : p n = false := by
        rcases hpn : p n with _ | _
        · rfl
        · exact absurd ((h n (by omega)).1 hpn).symm hkn
      have := ih (by omega) (fun i hi => h i (by omega))
      simp [this, h1]

theorem countP_range_zero (n : ℕ) (p : ℕ → Bool) (h : ∀ i, i < n → p i = false) :
    (List.range n).countP p = 0 := by
  rw [List.countP_eq_zero]
  intro a ha
  rw [List.mem_range] at ha
  simp [h a ha]

theorem countP_flatMap {α β} (l : List α) (f : α → List β) (p : β → Bool) :
    (l.flatMap f).countP p = (l.map fun a => (f a).countP p).sum := by
  induction l with
  | nil => rfl
  | cons a l ih => simp [List.flatMap_cons, List.countP_append, ih]

theorem countP_flatMap_range_one {α} (n k : ℕ) (f : ℕ → List α) (p : α → Bool)
    (hk : k < n) (hone : (f k).countP p = 1)
    (hzero : ∀ i, i < n → i ≠ k → (f i).countP p = 0) :
    ((List.range n).flatMap f).countP p = 1 := by
  induction n with
  | zero => omega
  | succ n ih =>
    rw [List.range_succ, List.flatMap_append, List.countP_append]
    by_cases hkn : k = n
    · have h0 : ((List.range n).flatMap f).countP p = 0 := by
        rw [List.countP_eq_zero]
        intro a ha
        rw [List.mem_flatMap] at ha
        obtain ⟨i, hi, hai⟩ := ha
        rw [List.mem_range] at hi
        have := hzero i (by omega) (by omega)
        rw [List.countP_eq_zero] at this
        exact this a hai
      have h1 : (f n).countP p = 1 := hkn ▸ hone
      simp [h0, h1]
    · have h1 : (f n).countP p = 0 := hzero n (by omega) (by omega)
      have := ih (by omega) (fun i hi hik => hzero i (by omega) hik)
      simp [this, h1]

theorem countP_flatMap_range_zero {α} (n : ℕ) (f : ℕ → List α) (p : α → Bool)
    (hzero : ∀ i, i < n → (f i).countP p = 0) :
    ((List.range n).flatMap f).countP p = 0 := by
  rw [List.countP_eq_zero]
  intro a ha
  rw [List.mem_flatMap] at ha
  obtain ⟨i, hi, hai⟩ := ha
  rw [List.mem_range] at hi
  have := hzero i hi
  rw [List.countP_eq_zero] at this
  exact this a hai

theorem countP_map_range_one {α} (n k : ℕ) (g : ℕ → α) (p : α → Bool) (hk : k < n)
    (h : ∀ i, i < n → (p (g i) = true ↔ i = k)) :
    ((List.range n).map g).countP p = 1 := by
  rw [List.countP_map]
  exact countP_range_one n k _ hk h

theorem countP_map_range_zero {α} (n : ℕ) (g : ℕ → α) (p : α → Bool)
    (h : ∀ i, i < n → p (g i) = false) :
    ((List.range n).map g).countP p = 0 := by
  rw [List.countP_map]
  exact countP_range_zero n _ h

/-- Counting over the triple loop of calls: exactly one coordinate triple
satisfies the predicate. -/
theorem countP_triple_one {α} (nx ny nz : ℕ) (g : ℕ → ℕ → ℕ → α) (p : α → Bool)
    (x0 y0 z0 : ℕ) (hx : x0 < nx) (hy : y0 < ny) (hz : z0 < nz)
    (h : ∀ x y z, x < nx → y < ny → z < nz →
      (p (g x y z) = true ↔ (x = x0 ∧ y = y0 ∧ z = z0))) :
    ((List.range nz).flatMap fun z => (List.range ny).flatMap fun y =>
      (List.range nx).map fun x => g x y z).countP p = 1 := by
  apply countP_flatMap_range_one nz z0 _ p hz
  · apply countP_flatMap_range_one ny y0 _ p hy
    · apply countP_map_range_one nx x0 _ p hx
      intro x hxn
      rw [h x y0 z0 hxn hy hz]
      omega
    · intro y hyn hyne
      apply countP_map_range_zero
      intro x hxn
      have := h x y z0 hxn hyn hz
      rcases hpg : p (g x y z0) with _ | _
      · rfl
      · exact absurd (this.1 hpg).2.1 hyne
  · intro z hzn hzne
    apply countP_flatMap_range_zero
    intro y hyn
    apply countP_map_range_zero
    intro x hxn
    have := h x y z hxn hyn hzn
    rcases hpg : p (g x y z) with _ | _
    · rfl
    · exact absurd (this.1 hpg).2.2 hzne

/-- Counting over the triple loop of calls: no triple satisfies the predicate. -/
theorem countP_triple_zero {α} (nx ny nz : ℕ) (g : ℕ → ℕ → ℕ → α) (p : α → Bool)
    (h : ∀ x y z, x < nx → y < ny → z < nz → p (g x y z) = false) :
    ((List.range nz).flatMap fun z => (List.range ny).flatMap fun y =>
      (List.range nx).map fun x => g x y z).countP p = 0 := by
  apply countP_flatMap_range_zero
  intro z hz
  apply countP_flatMap_range_zero
  intro y hy
  apply countP_map_range_zero
  intro x hx
  exact h x y z hx hy hz


/-! ### Bucketing lemmas -/

theorem fillCells_ok_bounds (idxOf : Particle → ℤ) (lo up : ℤ) :
    ∀ (ps : List Particle) (cs cs2 : List (List Particle)),
      fillCells idxOf lo up cs ps = .ok cs2 →
      ∀ p ∈ ps, lo ≤ idxOf p ∧ idxOf p < up := by
  intro ps
  induction ps with
  | nil => intro cs cs2 _ p hp; simp at hp
  | cons a ps ih =>
    intro cs cs2 hok p hp
    rw [fillCells] at hok
    by_cases hc : idxOf a < lo ∨ up ≤ idxOf a
    · rw [if_pos hc] at hok; cases hok
    · rw [if_neg hc] at hok
      rcases List.mem_cons.1 hp with rfl | hmem
      · omega
      · exact ih _ _ hok p hmem

theorem fillCells_ok_eq (idxOf : Particle → ℤ) (lo up : ℤ) :
    ∀ (ps : List Particle) (cs cs2 : List (List Particle)),
      fillCells idxOf lo up cs ps = .ok cs2 → cs2 = fillPure idxOf cs ps := by
  intro ps
  induction ps with
  | nil => intro cs cs2 hok; cases hok; rfl
  | cons a ps ih =>
    intro cs cs2 hok
    rw [fillCells] at hok
    by_cases hc : idxOf a < lo ∨ up ≤ idxOf a
    · rw [if_pos hc] at hok; cases hok
    · rw [if_neg hc] at hok
      exact ih _ _ hok

theorem fillCells_isOk_iff (idxOf : Particle → ℤ) (lo up : ℤ) :
    ∀ (ps : List Particle) (cs : List (List Particle)),
      (fillCells idxOf lo up cs ps).isOk = true ↔
        ∀ p ∈ ps, lo ≤ idxOf p ∧ idxOf p < up := by
  intro ps
  induction ps with
  | nil => intro cs; simp [fillCells, Except.isOk, Except.toBool]
  | cons a ps ih =>
    intro cs
    rw [fillCells]
    by_cases hc : idxOf a < lo ∨ up ≤ idxOf a
    · rw [if_pos hc]
      simp only [Except.isOk, Except.toBool]
      constructor
      · intro h; cases h
      · intro h
        have := h a (by simp)
        omega
    · rw [if_neg hc]
      rw [ih]
      constructor
      · intro h p hp
        rcases List.mem_cons.1 hp with rfl | hmem
        · omega
        · exact h p hmem
      · intro h p hp
        exact h p (List.mem_cons_of_mem a hp)

theorem fillPure_length (idxOf : Particle → ℤ) :
    ∀ (ps : List Particle) (cs : List (List Particle)),
      (fillPure idxOf cs ps).length = cs.length := by
  intro ps
  induction ps with
  | nil => intro cs; rfl
  | cons a ps ih =>
    intro cs
    rw [fillPure, List.foldl_cons, ← fillPure]
    rw [ih]
    simp [cellPush]

theorem fillPure_getD (idxOf : Particle → ℤ) :
    ∀ (ps : List Particle) (cs : List (List Particle)),
      (∀ p ∈ ps, (idxOf p).toNat < cs.length) →
      ∀ i, (fillPure idxOf cs ps).getD i [] =
        cs.getD i [] ++ ps.filter fun p => (idxOf p).toNat == i := by
  intro ps
  induction ps with
  | nil => intro cs _ i; simp [fillPure]
  | cons a ps ih =>
    intro cs hlen i
    rw [fillPure, List.foldl_cons, ← fillPure]
    have hlen2 : ∀ p ∈ ps, (idxOf p).toNat < (cellPush cs (idxOf a).toNat a).length := by
      intro p hp
      simp only [cellPush, List.length_set]
      exact hlen p (List.mem_cons_of_mem a hp)
    rw [ih _ hlen2 i]
    by_cases hia : (idxOf a).toNat = i
    · rw [List.filter_cons_of_pos (by simp [hia])]
      rw [cellPush, ← hia, getD_set_self _ _ _ _ (hlen a (by simp))]
      simp
    · rw [List.filter_cons_of_neg (by simp [hia])]
      rw [cellPush, getD_set_ne _ _ _ _ _ (fun h => hia h.symm)]

theorem pid_unique {ps : List Particle} (hnd : (ps.map Particle.pid).Nodup)
    {p q : Particle} (hp : p ∈ ps) (hq : q ∈ ps) (h : p.pid = q.pid) : p = q :=
  List.inj_on_of_nodup_map hnd hp hq h

/-- Content of the buckets produced by a successful bucketing run, in terms of
particle identities: identity i is in bucket k exactly when the particle with
that identity maps to k. -/
theorem containsId_fillPure (idxOf : Particle → ℤ) (ps : List Particle) (size : ℕ)
    (hnd : (ps.map Particle.pid).Nodup)
    (hbounds : ∀ q ∈ ps, (idxOf q).toNat < size)
    {p : Particle} (hp : p ∈ ps) (i : ℕ) :
    containsId ((fillPure idxOf (List.replicate size []) ps).getD i []) p.pid = true ↔
      i = (idxOf p).toNat := by
  rw [fillPure_getD idxOf ps _ (by simpa using hbounds) i, getD_replicate]
  simp only [List.nil_append, containsId, List.any_eq_true, List.mem_filter]
  constructor
  · rintro ⟨r, ⟨hrps, hri⟩, hrpid⟩
    have hrp : r = p := pid_unique hnd hrps hp (by simpa using hrpid)
    subst hrp
    have hri2 : (idxOf r).toNat = i := by simpa using hri
    exact hri2.symm
  · intro hi
    subst hi
    refine ⟨p, ?_⟩
    simp [hp]

/-! ### Linear index arithmetic -/

theorem linIdx_cast (nx ny x y z : ℕ) :
    (linIdx nx ny x y z : ℤ) = ((z : ℤ) * ny + y) * nx + x := by
  unfold linIdx
  push_cast
  ring

theorem linIdx_lt_size {nx ny nz x y z : ℕ} (hx : x < nx) (hy : y < ny) (hz : z < nz) :
    linIdx nx ny x y z < nx * ny * nz := by
  have h1 : linIdx nx ny x y z < (z * ny + y + 1) * nx := by
    simp only [linIdx]
    calc (z * ny + y) * nx + x < (z * ny + y) * nx + nx := by omega
    _ = (z * ny + y + 1) * nx := by ring
  have h2 : (z * ny + y + 1) * nx ≤ (nz * ny) * nx := by
    apply Nat.mul_le_mul_right
    calc z * ny + y + 1 ≤ z * ny + ny := by omega
    _ = (z + 1) * ny := by ring
    _ ≤ nz * ny := Nat.mul_le_mul_right _ (by omega)
  calc linIdx nx ny x y z < (nz * ny) * nx := lt_of_lt_of_le h1 h2
  _ = nx * ny * nz := by ring

theorem lin_comp (nx ny : ℕ) {x y z : ℕ} (hx : x < nx) (hy : y < ny) :
    linIdx nx ny x y z % nx = x ∧ linIdx nx ny x y z / nx % ny = y ∧
      linIdx nx ny x y z / (nx * ny) = z := by
  have hnx : 0 < nx := by omega
  have hny : 0 < ny := by omega
  refine ⟨?_, ?_, ?_⟩
  · rw [linIdx, Nat.mul_comm (z * ny + y) nx, Nat.mul_add_mod]
    exact Nat.mod_eq_of_lt hx
  · rw [linIdx, Nat.mul_comm (z * ny + y) nx, Nat.mul_add_div hnx,
      Nat.div_eq_of_lt hx, Nat.add_zero, Nat.mul_comm z ny, Nat.mul_add_mod]
    exact Nat.mod_eq_of_lt hy
  · have hrepr : linIdx nx ny x y z = (nx * ny) * z + (y * nx + x) := by
      simp [linIdx]; ring
    have hlt : y * nx + x < nx * ny := by
      have h1 : (y + 1) * nx ≤ ny * nx := Nat.mul_le_mul_right _ (by omega)
      have h2 : (y + 1) * nx = y * nx + nx := by ring
      have h3 : ny * nx = nx * ny := by ring
      omega
    rw [hrepr, Nat.mul_add_div (by positivity), Nat.div_eq_of_lt hlt, Nat.add_zero]

theorem unlin_lin {nx ny : ℕ} {x y z : ℕ} (hx : x < nx) (hy : y < ny) :
    unlin nx ny (linIdx nx ny x y z) = (x, y, z) := by
  obtain ⟨h1, h2, h3⟩ := lin_comp nx ny (z := z) hx hy
  simp [unlin, h1, h2, h3]

theorem lin_unlin {nx ny nz i : ℕ} (h : i < nx * ny * nz) :
    linIdx nx ny (unlin nx ny i).1 (unlin nx ny i).2.1 (unlin nx ny i).2.2 = i ∧
    (unlin nx ny i).1 < nx ∧ (unlin nx ny i).2.1 < ny ∧ (unlin nx ny i).2.2 < nz := by
  have hnx : 0 < nx := by by_contra hc; simp at hc; subst hc; simp at h
  have hny : 0 < ny := by by_contra hc; simp at hc; subst hc; simp at h
  refine ⟨?_, Nat.mod_lt _ hnx, Nat.mod_lt _ hny, ?_⟩
  · simp only [unlin, linIdx]
    have key : i % (nx * ny) = nx * (i / nx % ny) + i % nx := by
      rw [Nat.mod_mul]
      ring
    calc (i / (nx * ny) * ny + i / nx % ny) * nx + i % nx
        = (nx * ny) * (i / (nx * ny)) + (nx * (i / nx % ny) + i % nx) := by ring
    _ = (nx * ny) * (i / (nx * ny)) + i % (nx * ny) := by rw [key]
    _ = i := Nat.div_add_mod i (nx * ny)
  · simp only [unlin]
    rw [Nat.div_lt_iff_lt_mul (by positivity)]
    calc i < nx * ny * nz := h
    _ = nz * (nx * ny) := by ring

theorem lin_inj {nx ny : ℕ} {x y z a b c : ℕ} (hx : x < nx) (hy : y < ny)
    (ha : a < nx) (hb : b < ny) (h : linIdx nx ny x y z = linIdx nx ny a b c) :
    x = a ∧ y = b ∧ z = c := by
  have h1 := @unlin_lin nx ny x y z hx hy
  have h2 := @unlin_lin nx ny a b c ha hb
  rw [h, h2] at h1
  simp only [Prod.ext_iff] at h1
  exact ⟨h1.1.symm, h1.2.1.symm, h1.2.2.symm⟩


/-! ### Stencil membership -/

theorem mem_axisOffsetsAt {n i : ℕ} (hi : i < n) (d : ℤ) :
    d ∈ axisOffsetsAt n i ↔ (d = 0 ∨ (d = 1 ∧ i + 1 < n) ∨ (d = -1 ∧ 1 ≤ i)) := by
  unfold axisOffsetsAt
  split_ifs with h1 h2 h3 <;> simp_all <;> omega

theorem mem_zOffsetsAt (nz z : ℕ) (d : ℤ) :
    d ∈ zOffsetsAt nz z ↔ (d = 0 ∨ (d = 1 ∧ z + 1 < nz)) := by
  unfold zOffsetsAt
  split_ifs with h1 <;> simp_all

theorem adjCoord_iff (a b : ℕ) :
    adjCoord a b = true ↔ (a = b ∨ a + 1 = b ∨ b + 1 = a) := by
  simp [adjCoord, or_assoc]

theorem adjacentCells_iff (nx ny i j : ℕ) :
    adjacentCells nx ny i j = true ↔
      (adjCoord (unlin nx ny i).1 (unlin nx ny j).1 = true ∧
       adjCoord (unlin nx ny i).2.1 (unlin nx ny j).2.1 = true ∧
       adjCoord (unlin nx ny i).2.2 (unlin nx ny j).2.2 = true) := by
  simp [adjacentCells, Bool.and_eq_true, and_assoc]

theorem mem_stencilNeighbors (nx ny : ℕ) (idx : ℤ) (zs ys xs : List ℤ) (j : ℕ) :
    j ∈ stencilNeighbors nx ny idx zs ys xs ↔
      ∃ dz ∈ zs, ∃ dy ∈ ys, ∃ dx ∈ xs,
        idx < idx + dz * ((ny : ℤ) * (nx : ℤ)) + dy * (nx : ℤ) + dx ∧
        (idx + dz * ((ny : ℤ) * (nx : ℤ)) + dy * (nx : ℤ) + dx).toNat = j := by
  simp only [stencilNeighbors, List.mem_flatMap, List.mem_filterMap]
  constructor
  · rintro ⟨dz, hdz, dy, hdy, dx, hdx, hsome⟩
    rcases hlt : decide (idx < idx + dz * ((ny : ℤ) * (nx : ℤ)) + dy * (nx : ℤ) + dx) with _ | _
    · rw [if_neg (by simpa using hlt)] at hsome
      cases hsome
    · rw [if_pos (by simpa using hlt)] at hsome
      exact ⟨dz, hdz, dy, hdy, dx, hdx, by simpa using hlt, by simpa using hsome⟩
  · rintro ⟨dz, hdz, dy, hdy, dx, hdx, hlt, htn⟩
    exact ⟨dz, hdz, dy, hdy, dx, hdx, by rw [if_pos hlt, htn]⟩

/-- A cell strictly below in z has a strictly smaller linear index. -/
theorem linIdx_lt_of_z_lt {nx ny a b c x y z : ℕ} (ha : a < nx) (hb : b < ny)
    (hcz : c < z) : linIdx nx ny a b c < linIdx nx ny x y z := by
  have h1 : linIdx nx ny a b c < (c * ny + b + 1) * nx := by
    simp only [linIdx]
    have : (c * ny + b + 1) * nx = (c * ny + b) * nx + nx := by ring
    omega
  have h2 : (c * ny + b + 1) * nx ≤ (z * ny) * nx := by
    apply Nat.mul_le_mul_right
    have : (c + 1) * ny ≤ z * ny := Nat.mul_le_mul_right _ (by omega)
    have h3 : (c + 1) * ny = c * ny + ny := by ring
    omega
  have h4 : (z * ny) * nx ≤ linIdx nx ny x y z := by
    simp only [linIdx]
    have : (z * ny) * nx ≤ (z * ny + y) * nx :=
      Nat.mul_le_mul_right _ (by omega)
    omega
  omega

/-- Within one z layer, a cell strictly below in y has a strictly smaller
linear index. -/
theorem linIdx_lt_of_y_lt {nx ny a b x y c : ℕ} (ha : a < nx) (hby : b < y) :
    linIdx nx ny a b c < linIdx nx ny x y c := by
  have h1 : linIdx nx ny a b c < (c * ny + b + 1) * nx := by
    simp only [linIdx]
    have : (c * ny + b + 1) * nx = (c * ny + b) * nx + nx := by ring
    omega
  have h2 : (c * ny + b + 1) * nx ≤ (c * ny + y) * nx :=
    Nat.mul_le_mul_right _ (by omega)
  have h3 : (c * ny + y) * nx ≤ linIdx nx ny x y c := by
    simp only [linIdx]
    omega
  omega

/-- Normal-mode stencil characterisation: the neighbour list of the call at a
valid cell contains exactly the linear indices of the valid stencil-adjacent
cells with strictly larger linear index. -/
theorem mem_callAtN {nx ny nz x y z : ℕ} (hx : x < nx) (hy : y < ny) (hz : z < nz)
    (j : ℕ) :
    j ∈ (callAtN nx ny nz x y z).2 ↔
      ∃ a b c : ℕ, a < nx ∧ b < ny ∧ c < nz ∧
        adjCoord x a = true ∧ adjCoord y b = true ∧ adjCoord z c = true ∧
        linIdx nx ny x y z < linIdx nx ny a b c ∧ j = linIdx nx ny a b c := by
  rw [callAtN, mem_stencilNeighbors]
  constructor
  · rintro ⟨dz, hdz, dy, hdy, dx, hdx, hlt, htn⟩
    rw [mem_zOffsetsAt] at hdz
    rw [mem_axisOffsetsAt hy] at hdy
    rw [mem_axisOffsetsAt hx] at hdx
    refine ⟨((x : ℤ) + dx).toNat, ((y : ℤ) + dy).toNat, ((z : ℤ) + dz).toNat,
      by omega, by omega, by omega, ?_, ?_, ?_, ?_, ?_⟩
    · rw [adjCoord_iff]; omega
    · rw [adjCoord_iff]; omega
    · rw [adjCoord_iff]; omega
    · have hcast : (linIdx nx ny ((x : ℤ) + dx).toNat ((y : ℤ) + dy).toNat
          ((z : ℤ) + dz).toNat : ℤ) =
          (linIdx nx ny x y z : ℤ) + dz * ((ny : ℤ) * (nx : ℤ)) + dy * (nx : ℤ) + dx := by
        rw [linIdx_cast, linIdx_cast]
        have e1 : ((((x : ℤ) + dx).toNat : ℤ)) = (x : ℤ) + dx := by omega
        have e2 : ((((y : ℤ) + dy).toNat : ℤ)) = (y : ℤ) + dy := by omega
        have e3 : ((((z : ℤ) + dz).toNat : ℤ)) = (z : ℤ) + dz := by omega
        rw [e1, e2, e3]
        ring
      have := hlt
      zify
      rw [hcast]
      omega
    · have hcast : (linIdx nx ny ((x : ℤ) + dx).toNat ((y : ℤ) + dy).toNat
          ((z : ℤ) + dz).toNat : ℤ) =
          (linIdx nx ny x y z : ℤ) + dz * ((ny : ℤ) * (nx : ℤ)) + dy * (nx : ℤ) + dx := by
        rw [linIdx_cast, linIdx_cast]
        have e1 : ((((x : ℤ) + dx).toNat : ℤ)) = (x : ℤ) + dx := by omega
        have e2 : ((((y : ℤ) + dy).toNat : ℤ)) = (y : ℤ) + dy := by omega
        have e3 : ((((z : ℤ) + dz).toNat : ℤ)) = (z : ℤ) + dz := by omega
        rw [e1, e2, e3]
        ring
      omega
  · rintro ⟨a, b, c, ha, hb, hc, hax, hby, hcz, hlt, rfl⟩
    rw [adjCoord_iff] at hax hby hcz
    have hcnez : ¬(c + 1 = z) := by
      intro hc1
      have := linIdx_lt_of_z_lt (x := x) (y := y) ha hb (show c < z by omega)
      omega
    refine ⟨(c : ℤ) - z, ?_, (b : ℤ) - y, ?_, (a : ℤ) - x, ?_, ?_, ?_⟩
    · rw [mem_zOffsetsAt]; omega
    · rw [mem_axisOffsetsAt hy]; omega
    · rw [mem_axisOffsetsAt hx]; omega
    · have hcast : (linIdx nx ny a b c : ℤ) =
          (linIdx nx ny x y z : ℤ) + ((c : ℤ) - z) * ((ny : ℤ) * (nx : ℤ)) +
          ((b : ℤ) - y) * (nx : ℤ) + ((a : ℤ) - x) := by
        rw [linIdx_cast, linIdx_cast]
        ring
      omega
    · have hcast : (linIdx nx ny a b c : ℤ) =
          (linIdx nx ny x y z : ℤ) + ((c : ℤ) - z) * ((ny : ℤ) * (nx : ℤ)) +
          ((b : ℤ) - y) * (nx : ℤ) + ((a : ℤ) - x) := by
        rw [linIdx_cast, linIdx_cast]
        ring
      omega


/-! ### Delivery characterisation, Normal mode -/

theorem adjCoord_refl (a : ℕ) : adjCoord a a = true := by simp [adjCoord]

theorem adjCoord_symm {a b : ℕ} (h : adjCoord a b = true) : adjCoord b a = true := by
  rw [adjCoord_iff] at h ⊢
  omega

theorem adjacentCells_refl (nx ny a : ℕ) : adjacentCells nx ny a a = true := by
  simp [adjacentCells, adjCoord_refl]

theorem deliveredTogether_iff (cells : List (List Particle)) (ns : List ℕ) (h : ℕ)
    (pi qi A B : ℕ)
    (hcA : ∀ i, containsId (cells.getD i []) pi = true ↔ i = A)
    (hcB : ∀ i, containsId (cells.getD i []) qi = true ↔ i = B) :
    deliveredTogether (cells.getD h [], ns.map fun j => cells.getD j []) pi qi = true ↔
      ((h = A ∧ h = B) ∨ (h = A ∧ B ∈ ns) ∨ (h = B ∧ A ∈ ns)) := by
  simp only [deliveredTogether, Bool.or_eq_true, Bool.and_eq_true,
    List.any_eq_true, List.mem_map, exists_exists_and_eq_and, hcA, hcB,
    exists_eq_right, or_assoc]

/-- Per-call delivery characterisation for a Normal-mode traversal: the call at
valid cell (x,y,z) delivers the pair housed in cells A and B exactly when A and
B are stencil-adjacent and (x,y,z) is the lower-indexed of the two cells. -/
theorem delivered_call_char {nx ny nz : ℕ} (cells : List (List Particle))
    (pi qi A B : ℕ) (hA : A < nx * ny * nz) (hB : B < nx * ny * nz)
    (hcA : ∀ i, containsId (cells.getD i []) pi = true ↔ i = A)
    (hcB : ∀ i, containsId (cells.getD i []) qi = true ↔ i = B)
    {x y z : ℕ} (hx : x < nx) (hy : y < ny) (hz : z < nz) :
    (deliveredTogether
      (cells.getD (callAtN nx ny nz x y z).1 [],
       (callAtN nx ny nz x y z).2.map fun j => cells.getD j []) pi qi = true) ↔
      (adjacentCells nx ny A B = true ∧
        x = (unlin nx ny (min A B)).1 ∧ y = (unlin nx ny (min A B)).2.1 ∧
        z = (unlin nx ny (min A B)).2.2) := by
  have hhome : (callAtN nx ny nz x y z).1 = linIdx nx ny x y z := rfl
  rw [hhome, deliveredTogether_iff cells _ _ pi qi A B hcA hcB]
  obtain ⟨hlinA, huAx, huAy, huAz⟩ := @lin_unlin nx ny nz A hA
  obtain ⟨hlinB, huBx, huBy, huBz⟩ := @lin_unlin nx ny nz B hB
  constructor
  · rintro (⟨h1, h2⟩ | ⟨h1, h2⟩ | ⟨h1, h2⟩)
    · -- both in the home cell: A = B
      have hAB : A = B := by rw [← h1, ← h2]
      have hminA : min A B = A := by omega
      have hu : unlin nx ny A = (x, y, z) := by
        rw [← h1, unlin_lin hx hy]
      refine ⟨hAB ▸ adjacentCells_refl nx ny A, ?_⟩
      rw [hminA, hu]
      exact ⟨rfl, rfl, rfl⟩
    · -- home is A, B in the neighbour list
      rw [mem_callAtN hx hy hz] at h2
      obtain ⟨a, b, c, ha, hb, hc, hax, hby, hcz, hlt, hBlin⟩ := h2
      have hABlt : A < B := by rw [← h1, hBlin]; exact hlt
      have huA : unlin nx ny A = (x, y, z) := by rw [← h1, unlin_lin hx hy]
      have huB : unlin nx ny B = (a, b, c) := by rw [hBlin, unlin_lin ha hb]
      have hadj : adjacentCells nx ny A B = true := by
        rw [adjacentCells_iff, huA, huB]
        exact ⟨hax, hby, hcz⟩
      have hminA : min A B = A := by omega
      rw [hminA, huA]
      exact ⟨hadj, rfl, rfl, rfl⟩
    · -- home is B, A in the neighbour list
      rw [mem_callAtN hx hy hz] at h2
      obtain ⟨a, b, c, ha, hb, hc, hax, hby, hcz, hlt, hAlin⟩ := h2
      have hBAlt : B < A := by rw [← h1, hAlin]; exact hlt
      have huB : unlin nx ny B = (x, y, z) := by rw [← h1, unlin_lin hx hy]
      have huA : unlin nx ny A = (a, b, c) := by rw [hAlin, unlin_lin ha hb]
      have hadj : adjacentCells nx ny A B = true := by
        rw [adjacentCells_iff, huA, huB]
        exact ⟨adjCoord_symm hax, adjCoord_symm hby, adjCoord_symm hcz⟩
      have hminB : min A B = B := by omega
      rw [hminB, huB]
      exact ⟨hadj, rfl, rfl, rfl⟩
  · rintro ⟨hadj, hux, huy, huz⟩
    rcases Nat.lt_trichotomy A B with hABlt | hABeq | hBAlt
    · -- A < B: the home is A and B is a neighbour
      have hminA : min A B = A := by omega
      rw [hminA] at hux huy huz
      have hlinxyz : linIdx nx ny x y z = A := by
        rw [hux, huy, huz]; exact hlinA
      refine Or.inr (Or.inl ⟨hlinxyz, ?_⟩)
      rw [mem_callAtN hx hy hz]
      rw [adjacentCells_iff] at hadj
      refine ⟨(unlin nx ny B).1, (unlin nx ny B).2.1, (unlin nx ny B).2.2,
        huBx, huBy, huBz, ?_, ?_, ?_, ?_, ?_⟩
      · rw [hux]; exact hadj.1
      · rw [huy]; exact hadj.2.1
      · rw [huz]; exact hadj.2.2
      · rw [hlinB, hlinxyz]; exact hABlt
      · rw [hlinB]
    · -- A = B: both are in the home cell
      have hminA : min A B = A := by omega
      rw [hminA] at hux huy huz
      have hlinxyz : linIdx nx ny x y z = A := by
        rw [hux, huy, huz]; exact hlinA
      exact Or.inl ⟨hlinxyz, hABeq ▸ hlinxyz⟩
    · -- B < A: the home is B and A is a neighbour
      have hminB : min A B = B := by omega
      rw [hminB] at hux huy huz
      have hlinxyz : linIdx nx ny x y z = B := by
        rw [hux, huy, huz]; exact hlinB
      refine Or.inr (Or.inr ⟨hlinxyz, ?_⟩)
      rw [mem_callAtN hx hy hz]
      rw [adjacentCells_iff] at hadj
      refine ⟨(unlin nx ny A).1, (unlin nx ny A).2.1, (unlin nx ny A).2.2,
        huAx, huAy, huAz, ?_, ?_, ?_, ?_, ?_⟩
      · rw [hux]; exact adjCoord_symm hadj.1
      · rw [huy]; exact adjCoord_symm hadj.2.1
      · rw [huz]; exact adjCoord_symm hadj.2.2
      · rw [hlinA, hlinxyz]; exact hBAlt
      · rw [hlinA]


/-! ### Construction inversion -/

theorem except_map_eq_ok {ε α β} (r : Except ε α) (f : α → β) (g : β) :
    r.map f = Except.ok g ↔ ∃ a, r = Except.ok a ∧ g = f a := by
  cases r <;> simp [Except.map, eq_comm]

theorem gridConstruct_normal_nondilute {ps : List Particle} {g : GridS}
    (hdil : diluteB (baseGeometry ps) = false)
    (hok : gridConstruct .Normal ps = .ok g) :
    ∃ cs, fillCells (fun p => normalCellIndex (baseGeometry ps) p.pos) 0
        (((baseGeometry ps).nx * (baseGeometry ps).ny * (baseGeometry ps).nz : ℕ) : ℤ)
        (List.replicate ((baseGeometry ps).nx * (baseGeometry ps).ny *
          (baseGeometry ps).nz) []) ps = .ok cs ∧
      g = ⟨GridOptions.Normal, (baseGeometry ps).minP, (baseGeometry ps).fx,
        (baseGeometry ps).fy, (baseGeometry ps).fz, (baseGeometry ps).nx,
        (baseGeometry ps).ny, (baseGeometry ps).nz, cs⟩ := by
  unfold gridConstruct at hok
  rw [if_neg (by simp [hdil])] at hok
  rw [except_map_eq_ok] at hok
  obtain ⟨cs, hfill, hg⟩ := hok
  exact ⟨cs, hfill, hg⟩

theorem gridConstruct_dilute {ps : List Particle}
    (hdil : diluteB (baseGeometry ps) = true) :
    gridConstruct .Normal ps = .ok ⟨GridOptions.Normal, (baseGeometry ps).minP,
      (baseGeometry ps).fx, (baseGeometry ps).fy, (baseGeometry ps).fz,
      1, 1, 1, [ps]⟩ := by
  unfold gridConstruct
  rw [if_pos (by simp [hdil])]

theorem gridConstruct_periodic_inv {ps : List Particle} {g : GridS}
    (hok : gridConstruct .PeriodicBoundaries ps = .ok g) :
    ∃ cs, fillCells (fun p => periodicCellIndex (periodicGeometry ps) p.pos)
        (makeIndexZ (periodicGeometry ps).nx (periodicGeometry ps).ny 1 1 0)
        (makeIndexZ (periodicGeometry ps).nx (periodicGeometry ps).ny
          (((periodicGeometry ps).nx : ℤ) - 1) (((periodicGeometry ps).ny : ℤ) - 1)
          (((periodicGeometry ps).nz : ℤ) - 1))
        (List.replicate ((periodicGeometry ps).nx * (periodicGeometry ps).ny *
          (periodicGeometry ps).nz) []) ps = .ok cs ∧
      g = ⟨GridOptions.PeriodicBoundaries, (periodicGeometry ps).minP,
        (periodicGeometry ps).fx, (periodicGeometry ps).fy, (periodicGeometry ps).fz,
        (periodicGeometry ps).nx, (periodicGeometry ps).ny, (periodicGeometry ps).nz,
        ghostFill (periodicGeometry ps).nx (periodicGeometry ps).ny
          (periodicGeometry ps).nz
          ⟨(periodicGeometry ps).maxP.x - (periodicGeometry ps).minP.x,
           (periodicGeometry ps).maxP.y - (periodicGeometry ps).minP.y,
           (periodicGeometry ps).maxP.z - (periodicGeometry ps).minP.z⟩ cs⟩ := by
  unfold gridConstruct at hok
  rw [except_map_eq_ok] at hok
  obtain ⟨cs, hfill, hg⟩ := hok
  exact ⟨cs, hfill, hg⟩

/-! ### Master counting lemmas, Normal mode -/

theorem master_nondilute {ps : List Particle} {g : GridS}
    (hnd : (ps.map Particle.pid).Nodup)
    (hdil : diluteB (baseGeometry ps) = false)
    (hok : gridConstruct .Normal ps = .ok g)
    {p q : Particle} (hp : p ∈ ps) (hq : q ∈ ps) :
    numDeliveries g.iterate p.pid q.pid =
      if adjacentCells (baseGeometry ps).nx (baseGeometry ps).ny
          (normalCellIndex (baseGeometry ps) p.pos).toNat
          (normalCellIndex (baseGeometry ps) q.pos).toNat = true
      then 1 else 0 := by
  obtain ⟨cs, hfill, rfl⟩ := gridConstruct_normal_nondilute hdil hok
  set geo := baseGeometry ps with hgeo
  set nx := geo.nx
  set ny := geo.ny
  set nz := geo.nz
  set idxOf : Particle → ℤ := fun r => normalCellIndex geo r.pos with hidx
  have hbounds : ∀ r ∈ ps, 0 ≤ idxOf r ∧ idxOf r < ((nx * ny * nz : ℕ) : ℤ) :=
    fun r hr => fillCells_ok_bounds _ _ _ ps _ _ hfill r hr
  have hcs := fillCells_ok_eq _ _ _ ps _ _ hfill
  subst hcs
  set A := (idxOf p).toNat with hA
  set B := (idxOf q).toNat with hB
  have hAlt : A < nx * ny * nz := by
    have := hbounds p hp
    omega
  have hBlt : B < nx * ny * nz := by
    have := hbounds q hq
    omega
  have hminlt : min A B < nx * ny * nz := by omega
  have hsizes : ∀ r ∈ ps, (idxOf r).toNat < nx * ny * nz := by
    intro r hr
    have := hbounds r hr
    omega
  have hcA := containsId_fillPure idxOf ps (nx * ny * nz) hnd hsizes hp
  have hcB := containsId_fillPure idxOf ps (nx * ny * nz) hnd hsizes hq
  have hiter : (GridS.iterate ⟨GridOptions.Normal, geo.minP, geo.fx, geo.fy, geo.fz,
      nx, ny, nz, fillPure idxOf (List.replicate (nx * ny * nz) []) ps⟩) =
      (callsNormal nx ny nz).map fun c =>
        ((fillPure idxOf (List.replicate (nx * ny * nz) []) ps).getD c.1 [],
         c.2.map fun j => (fillPure idxOf (List.replicate (nx * ny * nz) []) ps).getD j []) :=
    rfl
  rw [hiter]
  unfold numDeliveries
  rw [List.countP_map]
  unfold callsNormal
  obtain ⟨hlinM, huMx, huMy, huMz⟩ := @lin_unlin nx ny nz (min A B) hminlt
  by_cases hadj : adjacentCells nx ny A B = true
  · rw [if_pos hadj]
    apply countP_triple_one nx ny nz _ _ (unlin nx ny (min A B)).1
      (unlin nx ny (min A B)).2.1 (unlin nx ny (min A B)).2.2 huMx huMy huMz
    intro x y z hx hy hz
    have hchar := @delivered_call_char nx ny nz
      (fillPure idxOf (List.replicate (nx * ny * nz) []) ps) p.pid q.pid A B
      hAlt hBlt hcA hcB x y z hx hy hz
    simp only [Function.comp] at hchar ⊢
    rw [hchar]
    simp [hadj]
  · rw [if_neg hadj]
    apply countP_triple_zero
    intro x y z hx hy hz
    have hchar := @delivered_call_char nx ny nz
      (fillPure idxOf (List.replicate (nx * ny * nz) []) ps) p.pid q.pid A B
      hAlt hBlt hcA hcB x y z hx hy hz
    simp only [Function.comp] at hchar ⊢
    rcases hPv : deliveredTogether
      ((fillPure idxOf (List.replicate (nx * ny * nz) []) ps).getD
        (callAtN nx ny nz x y z).1 [],
       (callAtN nx ny nz x y z).2.map fun j =>
        (fillPure idxOf (List.replicate (nx * ny * nz) []) ps).getD j []) p.pid q.pid
      with _ | _
    · rfl
    · exact absurd (hchar.1 hPv).1 hadj

theorem master_dilute {ps : List Particle} {g : GridS}
    (hdil : diluteB (baseGeometry ps) = true)
    (hok : gridConstruct .Normal ps = .ok g)
    {p q : Particle} (hp : p ∈ ps) (hq : q ∈ ps) :
    numDeliveries g.iterate p.pid q.pid = 1 := by
  rw [gridConstruct_dilute hdil] at hok
  cases hok
  have hcalls : callsNormal 1 1 1 = [(0, [])] := rfl
  have hiter : (GridS.iterate ⟨GridOptions.Normal, (baseGeometry ps).minP,
      (baseGeometry ps).fx, (baseGeometry ps).fy, (baseGeometry ps).fz,
      1, 1, 1, [ps]⟩) = [(ps, [])] := by
    unfold GridS.iterate
    rw [hcalls]
    rfl
  rw [hiter]
  unfold numDeliveries
  have hdel : deliveredTogether (ps, ([] : List (List Particle))) p.pid q.pid = true := by
    have h1 : containsId ps p.pid = true := by
      simp only [containsId, List.any_eq_true]
      exact ⟨p, hp, by simp⟩
    have h2 : containsId ps q.pid = true := by
      simp only [containsId, List.any_eq_true]
      exact ⟨q, hq, by simp⟩
    simp [deliveredTogether, h1, h2]
  simp [hdel]


/-! ### Grid shape and cell-content lemmas for claim proofs -/

theorem nondilute_shape {ps : List Particle} {g : GridS}
    (hdil : diluteB (baseGeometry ps) = false)
    (hok : gridConstruct .Normal ps = .ok g) :
    g.mode = GridOptions.Normal ∧ g.nx = (baseGeometry ps).nx ∧
      g.ny = (baseGeometry ps).ny ∧ g.nz = (baseGeometry ps).nz := by
  obtain ⟨cs, _, rfl⟩ := gridConstruct_normal_nondilute hdil hok
  exact ⟨rfl, rfl, rfl, rfl⟩

theorem cells_char_nondilute {ps : List Particle} {g : GridS}
    (hnd : (ps.map Particle.pid).Nodup)
    (hdil : diluteB (baseGeometry ps) = false)
    (hok : gridConstruct .Normal ps = .ok g)
    {p : Particle} (hp : p ∈ ps) :
    ∀ i, containsId (g.cells.getD i []) p.pid = true ↔
      i = (normalCellIndex (baseGeometry ps) p.pos).toNat := by
  obtain ⟨cs, hfill, rfl⟩ := gridConstruct_normal_nondilute hdil hok
  set geo := baseGeometry ps with hgeo
  set idxOf : Particle → ℤ := fun r => normalCellIndex geo r.pos with hidx
  have hbounds : ∀ r ∈ ps, 0 ≤ idxOf r ∧ idxOf r < ((geo.nx * geo.ny * geo.nz : ℕ) : ℤ) :=
    fun r hr => fillCells_ok_bounds _ _ _ ps _ _ hfill r hr
  have hcs := fillCells_ok_eq _ _ _ ps _ _ hfill
  subst hcs
  have hsizes : ∀ r ∈ ps, (idxOf r).toNat < geo.nx * geo.ny * geo.nz := by
    intro r hr
    have := hbounds r hr
    omega
  exact containsId_fillPure idxOf ps (geo.nx * geo.ny * geo.nz) hnd hsizes hp

/-- C1 (corrected): in open (Normal) mode, for a particle set with distinct
identities, every unordered pair of distinct particles that live in the same
cell or in stencil-adjacent cells is delivered together in exactly one
callback invocation of the traversal (both in the home list, or one in the
home list and one in a neighbour list); in the dilute single-cell fallback
every pair lives in the single cell and is likewise delivered exactly once,
in the home list of the single call. -/
theorem c1_pair_coverage_amended {ps : List Particle} {g : GridS}
    (hnd : (ps.map Particle.pid).Nodup)
    (hok : gridConstruct .Normal ps = .ok g)
    {p q : Particle} (hp : p ∈ ps) (hq : q ∈ ps) (hne : p.pid ≠ q.pid)
    (hadj : sameOrAdjacent g p.pid q.pid) :
    numDeliveries g.iterate p.pid q.pid = 1 := by
  rcases hdil : diluteB (baseGeometry ps) with _ | _
  · obtain ⟨a, b, ha, hb, hca, hcb, hab⟩ := hadj
    have hchA := cells_char_nondilute hnd hdil hok hp
    have hchB := cells_char_nondilute hnd hdil hok hq
    have haA : a = (normalCellIndex (baseGeometry ps) p.pos).toNat := (hchA a).1 hca
    have hbB : b = (normalCellIndex (baseGeometry ps) q.pos).toNat := (hchB b).1 hcb
    obtain ⟨_, hnx, hny, _⟩ := nondilute_shape hdil hok
    rw [master_nondilute hnd hdil hok hp hq, if_pos]
    rw [← haA, ← hbB, ← hnx, ← hny]
    exact hab
  · exact master_dilute hdil hok hp hq

/-- C1, counterexample to the claim as stated: in open mode on the 27-particle
lattice with spacing 3 the grid is a full 3x3x3 grid, the particles with
identities 0 and 26 sit in the two opposite corner cells, and the traversal
delivers that pair together in zero callback invocations, not exactly one. -/
theorem c1_counterexample :
    (gridConstruct .Normal (lattice3 3)).toOption.map
        (fun g => (g.nx, g.ny, g.nz, numDeliveries g.iterate 0 26)) =
      some (3, 3, 3, 0) ∧
    (lattice3 3).getD 0 ⟨99, ⟨0, 0, 0⟩⟩ = ⟨0, ⟨0, 0, 0⟩⟩ ∧
    (lattice3 3).getD 26 ⟨99, ⟨0, 0, 0⟩⟩ = ⟨26, ⟨6, 6, 6⟩⟩ := by
  refine ⟨?_, ?_, ?_⟩ <;> with_unfolding_all rfl

/-- C1, witness: the two-particle dilute scenario satisfies all hypotheses and
the pair is delivered exactly once. -/
theorem c1_pair_coverage_witness :
    ∃ g, gridConstruct .Normal scenarioTwo = .ok g ∧
      numDeliveries g.iterate 0 1 = 1 := by
  have hok : gridConstruct .Normal scenarioTwo =
      .ok ⟨GridOptions.Normal, ⟨0, 0, 0⟩, 9/100, 2/5, 2/5, 1, 1, 1, [scenarioTwo]⟩ := by
    with_unfolding_all rfl
  refine ⟨_, hok, ?_⟩
  have h01 : (⟨0, ⟨0, 0, 0⟩⟩ : Particle).pid = 0 := rfl
  have h11 : (⟨1, ⟨10, 0, 0⟩⟩ : Particle).pid = 1 := rfl
  rw [← h01, ← h11]
  apply @c1_pair_coverage_amended scenarioTwo _ (by decide) hok
    ⟨0, ⟨0, 0, 0⟩⟩ ⟨1, ⟨10, 0, 0⟩⟩
    (by simp [scenarioTwo]) (by simp [scenarioTwo]) (by decide)
  exact ⟨0, 0, by decide, by decide, by decide, by decide, by decide⟩

/-- C2 (corrected): in open (Normal) mode, no unordered pair of distinct
particles is delivered together in more than one callback invocation of the
traversal. -/
theorem c2_no_duplication_amended {ps : List Particle} {g : GridS}
    (hnd : (ps.map Particle.pid).Nodup)
    (hok : gridConstruct .Normal ps = .ok g)
    {p q : Particle} (hp : p ∈ ps) (hq : q ∈ ps) :
    numDeliveries g.iterate p.pid q.pid ≤ 1 := by
  rcases hdil : diluteB (baseGeometry ps) with _ | _
  · rw [master_nondilute hnd hdil hok hp hq]
    split <;> omega
  · rw [master_dilute hdil hok hp hq]

/-- C2, counterexample to the claim as stated: in periodic mode with two
interior z layers, the pair of particles with identities 0 and 1 (counting a
particle and its ghost copies as the same particle) is delivered together in
two distinct callback invocations: once directly and once through the ghost
copy of the z = 0 layer. -/
theorem c2_counterexample :
    (ps8.map Particle.pid).Nodup ∧
    (gridConstruct .PeriodicBoundaries ps8).toOption.map
        (fun g => numDeliveries g.iterate 0 1) = some 2 := by
  constructor
  · decide
  · with_unfolding_all rfl

/-- C2, witness: the two-particle dilute scenario satisfies the hypotheses and
its delivery count is at most one. -/
theorem c2_no_duplication_witness :
    ∃ g, gridConstruct .Normal scenarioTwo = .ok g ∧
      numDeliveries g.iterate 0 1 ≤ 1 := by
  have hok : gridConstruct .Normal scenarioTwo =
      .ok ⟨GridOptions.Normal, ⟨0, 0, 0⟩, 9/100, 2/5, 2/5, 1, 1, 1, [scenarioTwo]⟩ := by
    with_unfolding_all rfl
  refine ⟨_, hok, ?_⟩
  have h01 : (⟨0, ⟨0, 0, 0⟩⟩ : Particle).pid = 0 := rfl
  have h11 : (⟨1, ⟨10, 0, 0⟩⟩ : Particle).pid = 1 := rfl
  rw [← h01, ← h11]
  exact @c2_no_duplication_amended scenarioTwo _ (by decide) hok
    ⟨0, ⟨0, 0, 0⟩⟩ ⟨1, ⟨10, 0, 0⟩⟩
    (by simp [scenarioTwo]) (by simp [scenarioTwo])


/-! ### Cube root and geometry-resolution lemmas -/

theorem cbrtFold_ge_acc (n : ℕ) (l : List ℕ) :
    ∀ acc : ℕ, acc ≤ l.foldl (fun acc k => if k * k * k ≤ n then max acc k else acc) acc := by
  induction l with
  | nil => intro acc; exact Nat.le_refl acc
  | cons a l ih =>
    intro acc
    rw [List.foldl_cons]
    have h1 : acc ≤ (if a * a * a ≤ n then max acc a else acc) := by
      split <;> omega
    exact h1.trans (ih _)

theorem cbrtFold_ge_mem (n : ℕ) (l : List ℕ) :
    ∀ acc k, k ∈ l → k * k * k ≤ n →
      k ≤ l.foldl (fun acc k => if k * k * k ≤ n then max acc k else acc) acc := by
  induction l with
  | nil => intro acc k hk _; simp at hk
  | cons a l ih =>
    intro acc k hk hkn
    rw [List.foldl_cons]
    rcases List.mem_cons.1 hk with rfl | hmem
    · have h1 : k ≤ (if k * k * k ≤ n then max acc k else acc) := by
        rw [if_pos hkn]; omega
      exact h1.trans (cbrtFold_ge_acc n l _)
    · exact ih _ k hmem hkn

theorem cbrtFold_result (n : ℕ) (l : List ℕ) :
    ∀ acc, (l.foldl (fun acc k => if k * k * k ≤ n then max acc k else acc) acc = acc ∨
      (l.foldl (fun acc k => if k * k * k ≤ n then max acc k else acc) acc ∈ l ∧
        (l.foldl (fun acc k => if k * k * k ≤ n then max acc k else acc) acc) *
        (l.foldl (fun acc k => if k * k * k ≤ n then max acc k else acc) acc) *
        (l.foldl (fun acc k => if k * k * k ≤ n then max acc k else acc) acc) ≤ n)) := by
  induction l with
  | nil => intro acc; exact Or.inl rfl
  | cons a l ih =>
    intro acc
    rw [List.foldl_cons]
    rcases ih (if a * a * a ≤ n then max acc a else acc) with heq | ⟨hmem, hle⟩
    · rw [heq]
      by_cases han : a * a * a ≤ n
      · rw [if_pos han]
        rcases max_choice acc a with hm | hm
        · rw [hm]; exact Or.inl rfl
        · rw [hm]; exact Or.inr ⟨by simp, han⟩
      · rw [if_neg han]; exact Or.inl rfl
    · exact Or.inr ⟨List.mem_cons_of_mem a hmem, hle⟩

theorem natCbrt_cubed_le (n : ℕ) : natCbrt n * natCbrt n * natCbrt n ≤ n := by
  unfold natCbrt
  rcases cbrtFold_result n (List.range (n + 1)) 0 with heq | ⟨_, hle⟩
  · rw [heq]; omega
  · exact hle

theorem natCbrt_lt_succ_cubed (n : ℕ) :
    n < (natCbrt n + 1) * (natCbrt n + 1) * (natCbrt n + 1) := by
  by_contra h
  push_neg at h
  have hmem : natCbrt n + 1 ∈ List.range (n + 1) := by
    rw [List.mem_range]
    have h1 : natCbrt n + 1 ≤ (natCbrt n + 1) * (natCbrt n + 1) * (natCbrt n + 1) := by
      have := Nat.le_mul_of_pos_left (natCbrt n + 1)
        (show 0 < (natCbrt n + 1) * (natCbrt n + 1) by positivity)
      omega
    omega
  have := cbrtFold_ge_mem n (List.range (n + 1)) 0 (natCbrt n + 1) hmem h
  unfold natCbrt at this
  omega

theorem natCbrt_pos {n : ℕ} (hn : 1 ≤ n) : 1 ≤ natCbrt n := by
  have hmem : 1 ∈ List.range (n + 1) := by rw [List.mem_range]; omega
  exact cbrtFold_ge_mem n (List.range (n + 1)) 0 1 hmem (by omega)

theorem resolveAxis_count_pos (lo hi : ℚ) {mc : ℕ} (hmc : 1 ≤ mc) :
    1 ≤ (resolveAxis lo hi mc).1 := by
  simp only [resolveAxis]
  split
  · exact hmc
  · have := le_max_left 1 ⌈(hi - lo) * (1 / maxInteractionLength)⌉
    simp only
    omega

theorem resolveAxis_count_le (lo hi : ℚ) (mc : ℕ) :
    (resolveAxis lo hi mc).1 ≤ mc := by
  simp only [resolveAxis]
  split
  · exact le_refl mc
  · rename_i h
    simp only
    omega

theorem baseGeometry_counts_pos {ps : List Particle} (hne : ps ≠ []) :
    1 ≤ (baseGeometry ps).nx ∧ 1 ≤ (baseGeometry ps).ny ∧ 1 ≤ (baseGeometry ps).nz := by
  have hlen : 1 ≤ ps.length := by
    cases ps
    · exact absurd rfl hne
    · simp
  have hmc := natCbrt_pos hlen
  exact ⟨resolveAxis_count_pos _ _ hmc, resolveAxis_count_pos _ _ hmc,
    resolveAxis_count_pos _ _ hmc⟩

/-- C3 (confirmed): per-axis geometry resolution matches the reference
definition of the spec (index factor 1/2.5, count max(1, ceil(extent times
factor)), capped at floor(cbrt(N)) with the factor rescaled to
(cap - 0.1)/extent), and the resolved count is always at least 1 and never
exceeds floor(cbrt(N)). -/
theorem c3_geometry_resolution (lo hi : ℚ) (N : ℕ) (hN : 1 ≤ N) :
    resolveAxis lo hi (natCbrt N) = resolveAxisSpec lo hi (natCbrt N) ∧
    1 ≤ (resolveAxis lo hi (natCbrt N)).1 ∧
    (resolveAxis lo hi (natCbrt N)).1 ≤ natCbrt N ∧
    natCbrt N * natCbrt N * natCbrt N ≤ N ∧
    N < (natCbrt N + 1) * (natCbrt N + 1) * (natCbrt N + 1) := by
  refine ⟨rfl, resolveAxis_count_pos _ _ (natCbrt_pos hN), resolveAxis_count_le _ _ _,
    natCbrt_cubed_le N, natCbrt_lt_succ_cubed N⟩

/-- C3, witness: the resolution at extent 10 with two particles. -/
theorem c3_geometry_resolution_witness :
    (1 ≤ 2 ∧ resolveAxis 0 10 (natCbrt 2) = resolveAxisSpec 0 10 (natCbrt 2)) ∧
    1 ≤ (resolveAxis 0 10 (natCbrt 2)).1 ∧ (resolveAxis 0 10 (natCbrt 2)).1 ≤ natCbrt 2 :=
  ⟨⟨by omega, (c3_geometry_resolution 0 10 2 (by omega)).1⟩,
   (c3_geometry_resolution 0 10 2 (by omega)).2.1,
   (c3_geometry_resolution 0 10 2 (by omega)).2.2.1⟩

/-- C4 (corrected): when every axis resolves to at most two cells in Normal
(open) mode, construction degenerates to a single cell containing the whole
particle list, and the traversal makes exactly one callback whose home list
is the whole particle list and whose neighbour list is empty.  The dilute
branch is the else-if of the periodic branch, so periodic construction never
takes the fallback even when every axis resolves to at most two cells. -/
theorem c4_dilute_fallback {ps : List Particle} (hne : ps ≠ [])
    (hdil : diluteB (baseGeometry ps) = true) :
    ∃ g, gridConstruct .Normal ps = .ok g ∧ g.nx = 1 ∧ g.ny = 1 ∧ g.nz = 1 ∧
      g.cells = [ps] ∧ g.iterate = [(ps, [])] := by
  refine ⟨_, gridConstruct_dilute hdil, rfl, rfl, rfl, rfl, ?_⟩
  have hcalls : callsNormal 1 1 1 = [(0, [])] := rfl
  unfold GridS.iterate
  rw [hcalls]
  rfl

/-- C4, counterexample to the claim as stated for periodic mode: the
8-particle set resolves to 1 x 1 x 2 cells (every axis at most 2), yet
periodic construction does not degenerate - it builds a 3 x 3 x 3
ghost-augmented grid whose traversal makes two callbacks, not one. -/
theorem c4_counterexample :
    diluteB (baseGeometry ps8) = true ∧
    (gridConstruct .PeriodicBoundaries ps8).toOption.map
        (fun g => (g.nx, g.ny, g.nz, g.iterate.length)) = some (3, 3, 3, 2) := by
  constructor
  · with_unfolding_all rfl
  · with_unfolding_all rfl

/-- C4, witness: the two-particle scenario at distance 10 triggers the
fallback. -/
theorem c4_dilute_fallback_witness :
    (scenarioTwo ≠ [] ∧ diluteB (baseGeometry scenarioTwo) = true) ∧
    ∃ g, gridConstruct .Normal scenarioTwo = .ok g ∧ g.nx = 1 ∧ g.ny = 1 ∧ g.nz = 1 ∧
      g.cells = [scenarioTwo] ∧ g.iterate = [(scenarioTwo, [])] :=
  ⟨⟨by simp [scenarioTwo], by with_unfolding_all rfl⟩,
   c4_dilute_fallback (by simp [scenarioTwo]) (by with_unfolding_all rfl)⟩

/-- C6 (confirmed): in periodic mode the per-axis cell counts are the resolved
counts plus 2, 2 and 1, and a cell is a ghost cell exactly when x or y is at
either extreme index or z is at the last index; a cell with interior x and y
and z = 0 is never a ghost cell. -/
theorem c6_periodic_shape {ps : List Particle} {g : GridS} (hne : ps ≠ [])
    (hok : gridConstruct .PeriodicBoundaries ps = .ok g) :
    g.nx = (baseGeometry ps).nx + 2 ∧ g.ny = (baseGeometry ps).ny + 2 ∧
    g.nz = (baseGeometry ps).nz + 1 ∧
    (∀ x y z, (isGhostCell g.nx g.ny g.nz x y z = true ↔
      (x = 0 ∨ x + 1 = g.nx ∨ y = 0 ∨ y + 1 = g.ny ∨ z + 1 = g.nz))) ∧
    (∀ x y, 0 < x → x + 1 < g.nx → 0 < y → y + 1 < g.ny →
      isGhostCell g.nx g.ny g.nz x y 0 = false) := by
  obtain ⟨cs, hfill, rfl⟩ := gridConstruct_periodic_inv hok
  obtain ⟨hnx1, hny1, hnz1⟩ := baseGeometry_counts_pos hne
  refine ⟨rfl, rfl, rfl, ?_, ?_⟩
  · intro x y z
    simp [isGhostCell, periodicGeometry]
    omega
  · intro x y hx hxn hy hyn
    simp only [periodicGeometry] at hxn hyn ⊢
    simp [isGhostCell]
    omega

/-- C6, witness: the 8-particle periodic set gives a 3 x 3 x 3 periodic grid
and the centre cell of the z = 0 layer is not a ghost. -/
theorem c6_periodic_shape_witness :
    ∃ g, gridConstruct .PeriodicBoundaries ps8 = .ok g ∧
      g.nx = 3 ∧ g.ny = 3 ∧ g.nz = 3 ∧
      isGhostCell g.nx g.ny g.nz 1 1 0 = false := by
  have hisok : (gridConstruct .PeriodicBoundaries ps8).isOk = true := by
    with_unfolding_all rfl
  obtain ⟨g, hg⟩ : ∃ g, gridConstruct .PeriodicBoundaries ps8 = .ok g := by
    cases h : gridConstruct .PeriodicBoundaries ps8
    · rw [h] at hisok; cases hisok
    · exact ⟨_, rfl⟩
  obtain ⟨hnx, hny, hnz, _, hz0⟩ := c6_periodic_shape (by simp [ps8]) hg
  have hbx : (baseGeometry ps8).nx = 1 := by with_unfolding_all rfl
  have hby : (baseGeometry ps8).ny = 1 := by with_unfolding_all rfl
  have hbz : (baseGeometry ps8).nz = 2 := by with_unfolding_all rfl
  have hnx3 : g.nx = 3 := by omega
  have hny3 : g.ny = 3 := by omega
  have hnz3 : g.nz = 3 := by omega
  exact ⟨g, hg, hnx3, hny3, hnz3, hz0 1 1 (by omega) (by omega) (by omega) (by omega)⟩

/-- C7 (corrected): with spacing 2.5 the 27-particle lattice spans 5 length
units per axis, resolves to 2 cells per axis and therefore takes the dilute
fallback (a single cell holding all particles, not a 3x3x3 grid); with
spacing 3 construction produces the 3x3x3 grid, each particle in its own
cell, and the corner cell (0,0,0) receives a neighbour list of exactly 7
distinct cells. -/
theorem c7_lattice_scenario_amended :
    ((gridConstruct .Normal (lattice3 (5/2))).toOption.map
        (fun g => (g.nx, g.ny, g.nz, g.cells)) =
      some (1, 1, 1, [lattice3 (5/2)])) ∧
    ((gridConstruct .Normal (lattice3 3)).toOption.map
        (fun g => (g.nx, g.ny, g.nz)) = some (3, 3, 3)) ∧
    ((gridConstruct .Normal (lattice3 3)).toOption.map
        (fun g => g.cells.map fun c => c.map Particle.pid) =
      some ((List.range 27).map fun k => [k])) ∧
    ((gridConstruct .Normal (lattice3 3)).toOption.map
        (fun g => ((g.iterate.headD ([], [])).1.map Particle.pid,
          (g.iterate.headD ([], [])).2.length)) = some ([0], 7)) ∧
    (callsNormal 3 3 3).headD (0, []) = (0, [1, 3, 4, 9, 10, 12, 13]) ∧
    [1, 3, 4, 9, 10, 12, 13].Nodup := by
  refine ⟨?_, ?_, ?_, ?_, ?_, ?_⟩
  · with_unfolding_all rfl
  · with_unfolding_all rfl
  · with_unfolding_all rfl
  · with_unfolding_all rfl
  · with_unfolding_all rfl
  · decide

/-- C7, counterexample to the claim as stated: the spacing-2.5 lattice does
not produce a 3x3x3 grid; construction yields the dilute single-cell shape. -/
theorem c7_counterexample :
    (gridConstruct .Normal (lattice3 (5/2))).toOption.map
        (fun g => (g.nx, g.ny, g.nz)) = some (1, 1, 1) := by
  with_unfolding_all rfl

/-- C9 (confirmed): y_l_0 returns a value exactly for l = 2 and l = 4 and
raises a domain error for every other l; automatic parameter selection raises
a domain error exactly when the nucleon count is not 238, 208, 197 or 63. -/
theorem c9_nucleus_domain_errors :
    (∀ (l : ℤ) (c : ℝ), (y_l_0 l c).isOk = true ↔ (l = 2 ∨ l = 4)) ∧
    (∀ n : ℕ, (setParametersAutomatic n).isOk = false ↔
      (n ≠ 238 ∧ n ≠ 208 ∧ n ≠ 197 ∧ n ≠ 63)) := by
  constructor
  · intro l c
    unfold y_l_0
    split_ifs with h1 h2 <;> simp_all [Except.isOk, Except.toBool]
  · intro n
    unfold setParametersAutomatic
    split_ifs with h1 h2 h3 h4 <;> simp_all [Except.isOk, Except.toBool]

/-- C10 (confirmed): the Normal-mode out-of-bounds branch is reachable: with
64 particles spanning exactly 10 length units on x, the cap does not bind,
the index factor stays at the margin-free 1/2.5, the particle at the maximal
corner maps to cell coordinate 4 (one past the last of the 4 cells), and
debug construction throws. -/
theorem c10_oob_reachable :
    ps64 ≠ [] ∧
    gridConstruct .Normal ps64 = .error oobMsg ∧
    resolveAxis 0 10 (natCbrt 64) = (4, 2/5) ∧
    (baseGeometry ps64).nx = 4 ∧ (baseGeometry ps64).fx = 2/5 ∧
    normalCellIndex (baseGeometry ps64) ⟨10, 0, 0⟩ = 4 ∧
    ((baseGeometry ps64).nx * (baseGeometry ps64).ny * (baseGeometry ps64).nz : ℕ) = 4 := by
  refine ⟨by simp [ps64], ?_, ?_, ?_, ?_, ?_, ?_⟩
  · with_unfolding_all rfl
  · with_unfolding_all rfl
  · with_unfolding_all rfl
  · with_unfolding_all rfl
  · with_unfolding_all rfl
  · with_unfolding_all rfl


/-! ### Ghost-cell lemmas -/

theorem mem_allCoords {nx ny nz : ℕ} (c : ℕ × ℕ × ℕ) :
    c ∈ allCoords nx ny nz ↔ c.1 < nx ∧ c.2.1 < ny ∧ c.2.2 < nz := by
  obtain ⟨x, y, z⟩ := c
  simp only [allCoords, List.mem_flatMap, List.mem_map, List.mem_range]
  constructor
  · rintro ⟨z1, hz1, y1, hy1, x1, hx1, heq⟩
    obtain ⟨rfl, rfl, rfl⟩ : x1 = x ∧ y1 = y ∧ z1 = z := by
      simpa [Prod.ext_iff, and_comm] using heq
    exact ⟨hx1, hy1, hz1⟩
  · rintro ⟨hx, hy, hz⟩
    exact ⟨z, hz, y, hy, x, hx, rfl⟩

theorem allCoords_nodup (nx ny nz : ℕ) : (allCoords nx ny nz).Nodup := by
  unfold allCoords
  rw [List.nodup_flatMap]
  constructor
  · intro z _
    rw [List.nodup_flatMap]
    constructor
    · intro y _
      refine List.Nodup.map ?_ (List.nodup_range nx)
      intro a b hab
      simpa using hab
    · refine List.Pairwise.imp ?_ (List.pairwise_lt_range ny)
      intro y1 y2 h12 a ha1 ha2
      rw [List.mem_map] at ha1 ha2
      obtain ⟨x1, _, rfl⟩ := ha1
      obtain ⟨x2, _, heq⟩ := ha2
      have hy21 : y2 = y1 := by
        have h := heq
        simp [Prod.ext_iff] at h
        exact h.2
      omega
  · refine List.Pairwise.imp ?_ (List.pairwise_lt_range nz)
    intro z1 z2 h12 a ha1 ha2
    simp only [List.mem_flatMap, List.mem_map] at ha1 ha2
    obtain ⟨y1, _, x1, _, rfl⟩ := ha1
    obtain ⟨y2, _, x2, _, heq⟩ := ha2
    have hz21 : z2 = z1 := by
      have h := heq
      simp [Prod.ext_iff] at h
      exact h.2.2
    omega

theorem linIdx_cast3 (nx ny x y z : ℕ) :
    (linIdx nx ny x y z : ℤ) =
      (z : ℤ) * ((ny : ℤ) * (nx : ℤ)) + (y : ℤ) * (nx : ℤ) + (x : ℤ) := by
  unfold linIdx
  push_cast
  ring

theorem ghostSource_fst_eq (nx ny nz x y z : ℕ) (len : Vec3) :
    (ghostSource nx ny nz x y z len).1 =
      (linIdx nx ny x y z : ℤ) +
      (if x = 0 then (nx : ℤ) - 2 else if x + 1 = nx then -((nx : ℤ) - 2) else 0) +
      (if y = 0 then ((ny : ℤ) - 2) * (nx : ℤ)
       else if y + 1 = ny then -(((ny : ℤ) - 2) * (nx : ℤ)) else 0) +
      (if z + 1 = nz then -(((nz : ℤ) - 1) * ((nx : ℤ) * (ny : ℤ))) else 0) := by
  unfold ghostSource
  split_ifs <;> ring

theorem mirrorX_delta {nx x : ℕ} (hnx : 3 ≤ nx) (hx : x < nx) :
    ((mirrorCoordXY nx x : ℕ) : ℤ) =
      (x : ℤ) + (if x = 0 then (nx : ℤ) - 2 else if x + 1 = nx then -((nx : ℤ) - 2) else 0) := by
  unfold mirrorCoordXY
  split_ifs <;> omega

theorem mirrorZ_delta {nz z : ℕ} (hnz : 2 ≤ nz) (hz : z < nz) :
    ((mirrorCoordZ nz z : ℕ) : ℤ) =
      (z : ℤ) + (if z + 1 = nz then -((nz : ℤ) - 1) else 0) := by
  unfold mirrorCoordZ
  split_ifs <;> omega

theorem ghost_mirror_lin {nx ny nz x y z : ℕ} (hnx : 3 ≤ nx) (hny : 3 ≤ ny)
    (hnz : 2 ≤ nz) (hx : x < nx) (hy : y < ny) (hz : z < nz) (len : Vec3) :
    (ghostSource nx ny nz x y z len).1 =
      (linIdx nx ny (mirrorCoordXY nx x) (mirrorCoordXY ny y) (mirrorCoordZ nz z) : ℤ) := by
  rw [ghostSource_fst_eq, linIdx_cast3, linIdx_cast3,
    mirrorX_delta hnx hx, mirrorX_delta hny hy, mirrorZ_delta hnz hz]
  split_ifs <;> ring

theorem ghostSource_snd_eq (nx ny nz x y z : ℕ) (len : Vec3) :
    (ghostSource nx ny nz x y z len).2 = ghostShiftVec len nx ny nz x y z := by
  unfold ghostSource ghostShiftVec
  split_ifs <;> rfl

theorem mirror_valid {nx ny nz x y z : ℕ} (hnx : 3 ≤ nx) (hny : 3 ≤ ny) (hnz : 2 ≤ nz)
    (hx : x < nx) (hy : y < ny) (hz : z < nz) :
    mirrorCoordXY nx x < nx ∧ mirrorCoordXY ny y < ny ∧ mirrorCoordZ nz z < nz ∧
    isGhostCell nx ny nz (mirrorCoordXY nx x) (mirrorCoordXY ny y) (mirrorCoordZ nz z)
      = false := by
  unfold mirrorCoordXY mirrorCoordZ
  refine ⟨?_, ?_, ?_, ?_⟩
  · split_ifs <;> omega
  · split_ifs <;> omega
  · split_ifs <;> omega
  · simp only [isGhostCell]
    split_ifs <;> simp <;> omega

theorem ghostStep_getD_ne {nx ny nz : ℕ} (len : Vec3) (cs : List (List Particle))
    (c : ℕ × ℕ × ℕ) {i : ℕ} (hne : linIdx nx ny c.1 c.2.1 c.2.2 ≠ i) :
    (ghostStep nx ny nz len cs c).getD i [] = cs.getD i [] := by
  unfold ghostStep
  split
  · exact getD_set_ne _ _ _ _ _ (fun h => hne h.symm)
  · rfl

theorem ghostStep_nonghost {nx ny nz : ℕ} (len : Vec3) (cs : List (List Particle))
    (c : ℕ × ℕ × ℕ) (hng : isGhostCell nx ny nz c.1 c.2.1 c.2.2 = false) :
    ghostStep nx ny nz len cs c = cs := by
  unfold ghostStep
  rw [if_neg]
  simp [hng]

theorem ghostStep_length {nx ny nz : ℕ} (len : Vec3) (cs : List (List Particle))
    (c : ℕ × ℕ × ℕ) : (ghostStep nx ny nz len cs c).length = cs.length := by
  unfold ghostStep
  split
  · simp
  · rfl

theorem ghostFold_preserve {nx ny nz : ℕ} (len : Vec3) :
    ∀ (l : List (ℕ × ℕ × ℕ)) (cs : List (List Particle)) (i : ℕ),
      (∀ c ∈ l, isGhostCell nx ny nz c.1 c.2.1 c.2.2 = true →
        linIdx nx ny c.1 c.2.1 c.2.2 ≠ i) →
      ((l.foldl (ghostStep nx ny nz len) cs).getD i []) = cs.getD i [] := by
  intro l
  induction l with
  | nil => intro cs i _; rfl
  | cons c l ih =>
    intro cs i h
    rw [List.foldl_cons]
    rw [ih _ i fun d hd => h d (List.mem_cons_of_mem c hd)]
    rcases hg : isGhostCell nx ny nz c.1 c.2.1 c.2.2 with _ | _
    · rw [ghostStep_nonghost len cs c hg]
    · exact ghostStep_getD_ne len cs c (h c (by simp) hg)

theorem ghostFold_length {nx ny nz : ℕ} (len : Vec3) :
    ∀ (l : List (ℕ × ℕ × ℕ)) (cs : List (List Particle)),
      (l.foldl (ghostStep nx ny nz len) cs).length = cs.length := by
  intro l
  induction l with
  | nil => intro cs; rfl
  | cons c l ih =>
    intro cs
    rw [List.foldl_cons, ih, ghostStep_length]

theorem ghostFold_ghost {nx ny nz : ℕ} (hnx : 3 ≤ nx) (hny : 3 ≤ ny) (hnz : 2 ≤ nz)
    (len : Vec3) :
    ∀ (l : List (ℕ × ℕ × ℕ)) (cs : List (List Particle)),
      l.Nodup → (∀ c ∈ l, c.1 < nx ∧ c.2.1 < ny ∧ c.2.2 < nz) →
      cs.length = nx * ny * nz →
      ∀ gc ∈ l, isGhostCell nx ny nz gc.1 gc.2.1 gc.2.2 = true →
      (l.foldl (ghostStep nx ny nz len) cs).getD (linIdx nx ny gc.1 gc.2.1 gc.2.2) [] =
        (cs.getD (linIdx nx ny (mirrorCoordXY nx gc.1) (mirrorCoordXY ny gc.2.1)
            (mirrorCoordZ nz gc.2.2)) []).map
          (shiftP (ghostShiftVec len nx ny nz gc.1 gc.2.1 gc.2.2)) := by
  intro l
  induction l with
  | nil => intro cs _ _ _ gc hgc; simp at hgc
  | cons c l ih =>
    intro cs hnd hvalid hlen gc hgc hghost
    obtain ⟨hcx, hcy, hcz⟩ := hvalid c (by simp)
    obtain ⟨hgx, hgy, hgz⟩ := hvalid gc hgc
    rw [List.foldl_cons]
    by_cases hcg : c = gc
    · subst hcg
      have hnotin : c ∉ l := (List.nodup_cons.1 hnd).1
      have hpres : ((l.foldl (ghostStep nx ny nz len) (ghostStep nx ny nz len cs c)).getD
          (linIdx nx ny c.1 c.2.1 c.2.2) []) =
          (ghostStep nx ny nz len cs c).getD (linIdx nx ny c.1 c.2.1 c.2.2) [] := by
        apply ghostFold_preserve
        intro d hd _
        obtain ⟨hdx, hdy, hdz⟩ := hvalid d (List.mem_cons_of_mem c hd)
        intro heq
        obtain ⟨h1, h2, h3⟩ := lin_inj hdx hdy hcx hcy heq
        have : d = c := by
          obtain ⟨dx, dy, dz⟩ := d
          obtain ⟨cx, cy, cz⟩ := c
          simp_all
        exact hnotin (this ▸ hd)
      rw [hpres]
      unfold ghostStep
      rw [if_pos hghost]
      have hlt : linIdx nx ny c.1 c.2.1 c.2.2 < cs.length := by
        rw [hlen]
        exact linIdx_lt_size hcx hcy hcz
      rw [getD_set_self _ _ _ _ hlt]
      rw [ghost_mirror_lin hnx hny hnz hcx hcy hcz len, ghostSource_snd_eq]
      have htn : ((linIdx nx ny (mirrorCoordXY nx c.1) (mirrorCoordXY ny c.2.1)
          (mirrorCoordZ nz c.2.2) : ℕ) : ℤ).toNat =
          linIdx nx ny (mirrorCoordXY nx c.1) (mirrorCoordXY ny c.2.1)
            (mirrorCoordZ nz c.2.2) := by omega
      rw [htn]
    · have hgcl : gc ∈ l := by
        rcases List.mem_cons.1 hgc with rfl | hmem
        · exact absurd rfl hcg
        · exact hmem
      have hstep_len : (ghostStep nx ny nz len cs c).length = nx * ny * nz := by
        rw [ghostStep_length]; exact hlen
      rw [ih (ghostStep nx ny nz len cs c) (List.nodup_cons.1 hnd).2
        (fun d hd => hvalid d (List.mem_cons_of_mem c hd)) hstep_len gc hgcl hghost]
      obtain ⟨hmx, hmy, hmz, hmng⟩ := mirror_valid hnx hny hnz hgx hgy hgz
      rcases hcghost : isGhostCell nx ny nz c.1 c.2.1 c.2.2 with _ | _
      · rw [ghostStep_nonghost len cs c hcghost]
      · rw [ghostStep_getD_ne len cs c ?_]
        intro heq
        obtain ⟨h1, h2, h3⟩ := lin_inj hcx hcy hmx hmy heq
        rw [h1, h2, h3] at hcghost
        rw [hmng] at hcghost
        cases hcghost


theorem shiftP_negV_cancel (s : Vec3) (p : Particle) :
    shiftP (negV s) (shiftP s p) = p := by
  obtain ⟨pid, px, py, pz⟩ := p
  simp only [shiftP, negV, Particle.mk.injEq, Vec3.mk.injEq, true_and]
  refine ⟨?_, ?_, ?_⟩ <;> ring

theorem map_shift_cancel (s : Vec3) (l : List Particle) :
    (l.map (shiftP s)).map (shiftP (negV s)) = l := by
  rw [List.map_map]
  have : (shiftP (negV s) ∘ shiftP s) = id := by
    funext p
    exact shiftP_negV_cancel s p
  rw [this, List.map_id]

theorem periodic_dims {ps : List Particle} (hne : ps ≠ []) :
    3 ≤ (periodicGeometry ps).nx ∧ 3 ≤ (periodicGeometry ps).ny ∧
    2 ≤ (periodicGeometry ps).nz := by
  obtain ⟨h1, h2, h3⟩ := baseGeometry_counts_pos hne
  have e1 : (periodicGeometry ps).nx = (baseGeometry ps).nx + 2 := rfl
  have e2 : (periodicGeometry ps).ny = (baseGeometry ps).ny + 2 := rfl
  have e3 : (periodicGeometry ps).nz = (baseGeometry ps).nz + 1 := rfl
  omega

/-- C5 (confirmed): in periodic mode every ghost cell holds exactly the
particle list of its designated mirror interior cell shifted by the domain
extent along the wrapped axes (so subtracting the shift recovers the mirror
cell componentwise, identities included), the mirror cell is never itself a
ghost; concretely, with a domain of length 10 on x, the particle at x = 9.9
in the rightmost interior cell appears at x = -0.1 inside the x = 0 ghost
cell, and that ghost cell is in the neighbour list handed to the leftmost
interior cell's traversal call. -/
theorem c5_ghost_roundtrip :
    (∀ (ps : List Particle) (g : GridS), ps ≠ [] →
      gridConstruct .PeriodicBoundaries ps = .ok g →
      ∀ x y z : ℕ, x < g.nx → y < g.ny → z < g.nz →
        isGhostCell g.nx g.ny g.nz x y z = true →
        ((g.cells.getD (linIdx g.nx g.ny x y z) []).map
            (shiftP (negV (ghostShiftVec (domainLen ps) g.nx g.ny g.nz x y z))) =
          g.cells.getD (linIdx g.nx g.ny (mirrorCoordXY g.nx x) (mirrorCoordXY g.ny y)
            (mirrorCoordZ g.nz z)) [] ∧
         isGhostCell g.nx g.ny g.nz (mirrorCoordXY g.nx x) (mirrorCoordXY g.ny y)
           (mirrorCoordZ g.nz z) = false)) ∧
    (gridConstruct .PeriodicBoundaries ps27s).isOk = true ∧
    ((gridConstruct .PeriodicBoundaries ps27s).toOption.map
        fun g => (g.nx, g.ny, g.nz)) = some (5, 5, 2) ∧
    ((gridConstruct .PeriodicBoundaries ps27s).toOption.map
        fun g => g.cells.getD (linIdx 5 5 3 2 0) []) = some [⟨2, ⟨99/10, 5, 0⟩⟩] ∧
    ((gridConstruct .PeriodicBoundaries ps27s).toOption.map
        fun g => g.cells.getD (linIdx 5 5 0 2 0) []) = some [⟨2, ⟨-1/10, 5, 0⟩⟩] ∧
    domainLen ps27s = ⟨10, 10, 0⟩ ∧
    mirrorCoordXY 5 0 = 3 ∧
    linIdx 5 5 0 2 0 ∈ ((callsPeriodic 5 5 2).headD (0, [])).2 ∧
    ((callsPeriodic 5 5 2).headD (0, [])).1 = linIdx 5 5 1 1 0 := by
  refine ⟨?_, ?_, ?_, ?_, ?_, ?_, ?_, ?_, ?_⟩
  · intro ps g hne hok x y z hx hy hz hghost
    obtain ⟨cs, hfill, rfl⟩ := gridConstruct_periodic_inv hok
    obtain ⟨hnx3, hny3, hnz2⟩ := periodic_dims hne
    set pg := periodicGeometry ps with hpg
    simp only at hx hy hz hghost ⊢
    have hcs := fillCells_ok_eq _ _ _ ps _ _ hfill
    have hlen : cs.length = pg.nx * pg.ny * pg.nz := by
      rw [hcs, fillPure_length]
      simp
    have hlenV : (⟨pg.maxP.x - pg.minP.x, pg.maxP.y - pg.minP.y,
        pg.maxP.z - pg.minP.z⟩ : Vec3) = domainLen ps := rfl
    rw [hlenV]
    have hmemg : ((x, y, z) : ℕ × ℕ × ℕ) ∈ allCoords pg.nx pg.ny pg.nz := by
      rw [mem_allCoords]
      exact ⟨hx, hy, hz⟩
    have hvalid : ∀ c ∈ allCoords pg.nx pg.ny pg.nz,
        c.1 < pg.nx ∧ c.2.1 < pg.ny ∧ c.2.2 < pg.nz :=
      fun c hc => (mem_allCoords c).1 hc
    obtain ⟨hmx, hmy, hmz, hmng⟩ := mirror_valid hnx3 hny3 hnz2 hx hy hz
    have hgmain := ghostFold_ghost hnx3 hny3 hnz2 (domainLen ps)
      (allCoords pg.nx pg.ny pg.nz) cs (allCoords_nodup _ _ _) hvalid hlen
      (x, y, z) hmemg hghost
    have hmirror_pres : (ghostFill pg.nx pg.ny pg.nz (domainLen ps) cs).getD
        (linIdx pg.nx pg.ny (mirrorCoordXY pg.nx x) (mirrorCoordXY pg.ny y)
          (mirrorCoordZ pg.nz z)) [] =
        cs.getD (linIdx pg.nx pg.ny (mirrorCoordXY pg.nx x) (mirrorCoordXY pg.ny y)
          (mirrorCoordZ pg.nz z)) [] := by
      unfold ghostFill
      apply ghostFold_preserve
      intro c hc hcghost heq
      obtain ⟨hcx, hcy, hcz⟩ := hvalid c hc
      obtain ⟨h1, h2, h3⟩ := lin_inj hcx hcy hmx hmy heq
      rw [h1, h2, h3] at hcghost
      rw [hmng] at hcghost
      cases hcghost
    constructor
    · have hgmain2 : (ghostFill pg.nx pg.ny pg.nz (domainLen ps) cs).getD
          (linIdx pg.nx pg.ny x y z) [] =
          (cs.getD (linIdx pg.nx pg.ny (mirrorCoordXY pg.nx x) (mirrorCoordXY pg.ny y)
            (mirrorCoordZ pg.nz z)) []).map
            (shiftP (ghostShiftVec (domainLen ps) pg.nx pg.ny pg.nz x y z)) := hgmain
      rw [hgmain2, hmirror_pres]
      exact map_shift_cancel _ _
    · exact hmng
  · with_unfolding_all rfl
  · with_unfolding_all rfl
  · with_unfolding_all rfl
  · with_unfolding_all rfl
  · with_unfolding_all rfl
  · with_unfolding_all rfl
  · decide
  · rfl

/-- C5, witness: the round-trip property instantiated on the concrete
periodic scenario grid, at the x = 0 ghost cell holding the shifted image. -/
theorem c5_ghost_roundtrip_witness :
    ∃ g, gridConstruct .PeriodicBoundaries ps27s = .ok g ∧
      (g.cells.getD (linIdx g.nx g.ny 0 2 0) []).map
          (shiftP (negV (ghostShiftVec (domainLen ps27s) g.nx g.ny g.nz 0 2 0))) =
        g.cells.getD (linIdx g.nx g.ny (mirrorCoordXY g.nx 0) (mirrorCoordXY g.ny 2)
          (mirrorCoordZ g.nz 0)) [] := by
  have hisok : (gridConstruct .PeriodicBoundaries ps27s).isOk = true := by
    with_unfolding_all rfl
  obtain ⟨g, hg⟩ : ∃ g, gridConstruct .PeriodicBoundaries ps27s = .ok g := by
    cases h : gridConstruct .PeriodicBoundaries ps27s
    · rw [h] at hisok; cases hisok
    · exact ⟨_, rfl⟩
  have hdims : (gridConstruct .PeriodicBoundaries ps27s).toOption.map
      (fun g => (g.nx, g.ny, g.nz)) = some (5, 5, 2) := by
    with_unfolding_all rfl
  rw [hg] at hdims
  have h2 : (g.nx, g.ny, g.nz) = ((5 : ℕ), (5 : ℕ), (2 : ℕ)) := by
    simpa [Except.toOption] using hdims
  have hnx : g.nx = 5 := congrArg Prod.fst h2
  have hny : g.ny = 5 := congrArg (fun t => t.2.1) h2
  have hnz : g.nz = 2 := congrArg (fun t => t.2.2) h2
  refine ⟨g, hg, ?_⟩
  exact (c5_ghost_roundtrip.1 ps27s g (by simp [ps27s]) hg 0 2 0
    (by omega) (by omega) (by omega)
    (by rw [hnx, hny, hnz]; decide)).1


theorem except_map_isOk {ε α β} (r : Except ε α) (f : α → β) :
    (r.map f).isOk = r.isOk := by
  cases r <;> rfl

/-- C8 (corrected): debug construction throws exactly when some particle's
computed linear cell index falls outside the checked linear window - in
Normal (non-dilute) mode the window [0, number of cells), in periodic mode
the window from the linear index of the first interior cell (1,1,0) up to
but excluding the linear index of the last cell (nx-1, ny-1, nz-1) - and no
cell receives the offending particle.  The periodic window is a linear-index
window, not the exact set of interior non-ghost cells. -/
theorem c8_bounds_check_amended :
    (∀ ps : List Particle, diluteB (baseGeometry ps) = false →
      ((gridConstruct GridOptions.Normal ps).isOk = false ↔
        ∃ p ∈ ps, normalCellIndex (baseGeometry ps) p.pos < 0 ∨
          (((baseGeometry ps).nx * (baseGeometry ps).ny * (baseGeometry ps).nz : ℕ) : ℤ) ≤
            normalCellIndex (baseGeometry ps) p.pos)) ∧
    (∀ ps : List Particle,
      ((gridConstruct GridOptions.PeriodicBoundaries ps).isOk = false ↔
        ∃ p ∈ ps, periodicCellIndex (periodicGeometry ps) p.pos <
            makeIndexZ (periodicGeometry ps).nx (periodicGeometry ps).ny 1 1 0 ∨
          makeIndexZ (periodicGeometry ps).nx (periodicGeometry ps).ny
              (((periodicGeometry ps).nx : ℤ) - 1) (((periodicGeometry ps).ny : ℤ) - 1)
              (((periodicGeometry ps).nz : ℤ) - 1) ≤
            periodicCellIndex (periodicGeometry ps) p.pos)) := by
  constructor
  · intro ps hdil
    unfold gridConstruct
    rw [if_neg (by simp [hdil]), except_map_isOk]
    have hiff := fillCells_isOk_iff (fun p => normalCellIndex (baseGeometry ps) p.pos)
      0 (((baseGeometry ps).nx * (baseGeometry ps).ny * (baseGeometry ps).nz : ℕ) : ℤ)
      ps (List.replicate ((baseGeometry ps).nx * (baseGeometry ps).ny *
        (baseGeometry ps).nz) [])
    simp only at hiff
    constructor
    · intro hfalse
      by_contra hcon
      push_neg at hcon
      have hall : ∀ p ∈ ps, 0 ≤ normalCellIndex (baseGeometry ps) p.pos ∧
          normalCellIndex (baseGeometry ps) p.pos <
            (((baseGeometry ps).nx * (baseGeometry ps).ny * (baseGeometry ps).nz : ℕ) : ℤ) := by
        intro p hp
        have := hcon p hp
        omega
      rw [hiff.2 hall] at hfalse
      cases hfalse
    · rintro ⟨p, hp, hP⟩
      rcases hok2 : (fillCells (fun p => normalCellIndex (baseGeometry ps) p.pos)
          0 (((baseGeometry ps).nx * (baseGeometry ps).ny * (baseGeometry ps).nz : ℕ) : ℤ)
          (List.replicate ((baseGeometry ps).nx * (baseGeometry ps).ny *
            (baseGeometry ps).nz) []) ps).isOk with _ | _
      · rfl
      · have := (hiff.1 hok2) p hp
        omega
  · intro ps
    unfold gridConstruct
    rw [except_map_isOk]
    have hiff := fillCells_isOk_iff (fun p => periodicCellIndex (periodicGeometry ps) p.pos)
      (makeIndexZ (periodicGeometry ps).nx (periodicGeometry ps).ny 1 1 0)
      (makeIndexZ (periodicGeometry ps).nx (periodicGeometry ps).ny
        (((periodicGeometry ps).nx : ℤ) - 1) (((periodicGeometry ps).ny : ℤ) - 1)
        (((periodicGeometry ps).nz : ℤ) - 1))
      ps (List.replicate ((periodicGeometry ps).nx * (periodicGeometry ps).ny *
        (periodicGeometry ps).nz) [])
    simp only at hiff
    constructor
    · intro hfalse
      by_contra hcon
      push_neg at hcon
      have hall : ∀ p ∈ ps,
          makeIndexZ (periodicGeometry ps).nx (periodicGeometry ps).ny 1 1 0 ≤
            periodicCellIndex (periodicGeometry ps) p.pos ∧
          periodicCellIndex (periodicGeometry ps) p.pos <
            makeIndexZ (periodicGeometry ps).nx (periodicGeometry ps).ny
              (((periodicGeometry ps).nx : ℤ) - 1) (((periodicGeometry ps).ny : ℤ) - 1)
              (((periodicGeometry ps).nz : ℤ) - 1) := by
        intro p hp
        have := hcon p hp
        omega
      rw [hiff.2 hall] at hfalse
      cases hfalse
    · rintro ⟨p, hp, hP⟩
      rcases hok2 : (fillCells (fun p => periodicCellIndex (periodicGeometry ps) p.pos)
          (makeIndexZ (periodicGeometry ps).nx (periodicGeometry ps).ny 1 1 0)
          (makeIndexZ (periodicGeometry ps).nx (periodicGeometry ps).ny
            (((periodicGeometry ps).nx : ℤ) - 1) (((periodicGeometry ps).ny : ℤ) - 1)
            (((periodicGeometry ps).nz : ℤ) - 1))
          (List.replicate ((periodicGeometry ps).nx * (periodicGeometry ps).ny *
            (periodicGeometry ps).nz) []) ps).isOk with _ | _
      · rfl
      · have := (hiff.1 hok2) p hp
        omega

/-- C8, counterexample to the claim as stated: in periodic mode construction
succeeds on a particle set in which the particle with identity 7 maps to
cell (3,1,0) - a ghost cell, hence outside the interior non-ghost index
range - because its linear index 7 still lies inside the checked linear
window; the claimed throw does not happen. -/
theorem c8_counterexample :
    (gridConstruct .PeriodicBoundaries ps8b).isOk = true ∧
    periodicCellIndex (periodicGeometry ps8b) ⟨5, 0, 0⟩ = 7 ∧
    ((periodicGeometry ps8b).nx, (periodicGeometry ps8b).ny,
      (periodicGeometry ps8b).nz) = (4, 3, 2) ∧
    unlin 4 3 7 = (3, 1, 0) ∧
    isGhostCell 4 3 2 3 1 0 = true ∧
    ps8b.getD 7 ⟨99, ⟨0, 0, 0⟩⟩ = ⟨7, ⟨5, 0, 0⟩⟩ := by
  refine ⟨?_, ?_, ?_, ?_, ?_, ?_⟩
  · with_unfolding_all rfl
  · with_unfolding_all rfl
  · with_unfolding_all rfl
  · with_unfolding_all rfl
  · decide
  · with_unfolding_all rfl

/-- C8, witness: the amended equivalence instantiated on the spacing-3
lattice in Normal mode and on the 8-particle periodic set. -/
theorem c8_bounds_check_witness :
    (diluteB (baseGeometry (lattice3 3)) = false ∧
      ((gridConstruct GridOptions.Normal (lattice3 3)).isOk = false ↔
        ∃ p ∈ lattice3 3, normalCellIndex (baseGeometry (lattice3 3)) p.pos < 0 ∨
          (((baseGeometry (lattice3 3)).nx * (baseGeometry (lattice3 3)).ny *
            (baseGeometry (lattice3 3)).nz : ℕ) : ℤ) ≤
            normalCellIndex (baseGeometry (lattice3 3)) p.pos)) ∧
    ((gridConstruct GridOptions.PeriodicBoundaries ps8).isOk = false ↔
      ∃ p ∈ ps8, periodicCellIndex (periodicGeometry ps8) p.pos <
          makeIndexZ (periodicGeometry ps8).nx (periodicGeometry ps8).ny 1 1 0 ∨
        makeIndexZ (periodicGeometry ps8).nx (periodicGeometry ps8).ny
            (((periodicGeometry ps8).nx : ℤ) - 1) (((periodicGeometry ps8).ny : ℤ) - 1)
            (((periodicGeometry ps8).nz : ℤ) - 1) ≤
          periodicCellIndex (periodicGeometry ps8) p.pos) :=
  ⟨⟨by with_unfolding_all rfl,
    c8_bounds_check_amended.1 (lattice3 3) (by with_unfolding_all rfl)⟩,
   c8_bounds_check_amended.2 ps8⟩

end SmashGrid
